import Mathlib

/-!
# tgit: a verification development

A shallow embedding of `main.go` of `calmh/tgit` and theorems about it.

Conventions of the embedding:

* a Go `string` is a Lean `String` where the program only builds, compares and
  prints it, and a `List Char` where the program takes it apart (the status
  report that `gitStatus` parses, the paths that `findGits` inspects); texts
  are sequences of Unicode characters, that is, valid UTF-8;
* a Go `int` is an `Int`; the only arithmetic on ints happens inside
  `strconv.Atoi`, whose range checks are modelled explicitly (`intSize = 64`);
* a Go `error` is the text that `%v` prints for it;
* a run-time panic (index out of range) is an explicit outcome;
* the external `git` tool and the file system are inputs of the model: the
  tool answers each invocation as a function of the invocations made before,
  the file system is a tree of named entries;
* paths are Unix paths (`os.PathSeparator` is `/`), and `filepath.Walk` is the
  one of the current Go standard library, which reads the names of a directory
  before it calls the function on that directory;
* a send on the channel `gits` appends to the list of paths sent, and a worker
  is run on the list of paths that it receives.
-/

namespace Tgit

/-! ## The status model (`main.go`, lines 85-115) -/

/-- The Go type `string`, where the program treats it as a whole. -/
abbrev GoString := String

/-- The Go type `error`, represented by its message. -/
abbrev Error := GoString

/-- The struct `status`. -/
structure status where
  dirty : Bool
  remoteError : Bool
  plus : Int
  minus : Int
  deriving DecidableEq

/-- The composite literal `status{}`: every field at its zero value. -/
def status.zero : status :=
  { dirty := false, remoteError := false, plus := 0, minus := 0 }

/-- The method `clean`: `return s == status{}`. -/
def status.clean (s : status) : Bool :=
  decide (s = status.zero)

/-- The method `String` of `status`. -/
def status.String (s : status) : GoString :=
  let ss : GoString := ""
  let ss := if s.dirty then ss ++ "D" else ss ++ " "
  let ss :=
    if s.remoteError then ss ++ "E"
    else if s.plus > 0 ∧ s.minus < 0 then ss ++ "*"
    else if s.plus > 0 then ss ++ "+"
    else if s.minus < 0 then ss ++ "-"
    else ss ++ " "
  ss

/-- The first character of the code, in the words of the specification. -/
def dirtyChar (s : status) : Char :=
  if s.dirty then 'D' else ' '

/-- The second character of the code, in the words of the specification:
`E`, else `*`, else `+`, else `-`, else a space. -/
def syncChar (s : status) : Char :=
  if s.remoteError then 'E'
  else if s.plus > 0 ∧ s.minus < 0 then '*'
  else if s.plus > 0 then '+'
  else if s.minus < 0 then '-'
  else ' '

/-! ## The Go library functions used by the parser

`strings.HasPrefix`, `strings.Split`, `strings.Fields` and `strconv.Atoi`,
following the Go standard library. -/

/-- The function `strings.HasPrefix`. -/
def HasPrefix (s pre : List Char) : Bool :=
  pre.isPrefixOf s

/-- The function `strings.Split(s, sep)` for a separator of one character:
the pieces between the separators, `n + 1` pieces for `n` separators. -/
def Split (sep : Char) : List Char → List (List Char)
  | [] => [[]]
  | c :: cs =>
    if c = sep then [] :: Split sep cs
    else
      match Split sep cs with
      | [] => [[c]]
      | piece :: pieces => (c :: piece) :: pieces

/-- The function `unicode.IsSpace`: the characters with the Unicode property
White_Space. -/
def IsSpace (c : Char) : Bool :=
  let r := c.toNat
  (0x09 ≤ r ∧ r ≤ 0x0d) ∨ r = 0x20 ∨ r = 0x85 ∨ r = 0xA0 ∨ r = 0x1680
    ∨ (0x2000 ≤ r ∧ r ≤ 0x200a) ∨ r = 0x2028 ∨ r = 0x2029 ∨ r = 0x202f
    ∨ r = 0x205f ∨ r = 0x3000

/-- The scan of `strings.Fields`: `cur` holds the characters of the field
being read, last one first. -/
def FieldsFrom (cur : List Char) : List Char → List (List Char)
  | [] => if cur = [] then [] else [cur.reverse]
  | c :: cs =>
    if IsSpace c then
      if cur = [] then FieldsFrom [] cs else cur.reverse :: FieldsFrom [] cs
    else FieldsFrom (c :: cur) cs

/-- The function `strings.Fields`: the maximal runs of characters that are not
white space. -/
def Fields (s : List Char) : List (List Char) :=
  FieldsFrom [] s

/-- The size of the Go type `int` in bits (`strconv.IntSize`). -/
def intSize : Nat := 64

/-- The two errors of `strconv`: `ErrSyntax` and `ErrRange`. -/
inductive NumError where
  | ErrSyntax : NumError
  | ErrRange : NumError
  deriving DecidableEq

/-- The largest `uint64`. -/
def maxUint64 : Nat := 2 ^ 64 - 1

/-- The value of one character as a digit in `strconv.ParseUint`: decimal
digits, then letters from ten upwards; `none` for any other character. -/
def digitVal (c : Char) : Option Nat :=
  let b := c.toNat
  let lower := b ||| 0x20
  if 0x30 ≤ b ∧ b ≤ 0x39 then some (b - 0x30)
  else if 0x61 ≤ lower ∧ lower ≤ 0x7a then some (lower - 0x61 + 10)
  else none

/-- The loop of `strconv.ParseUint(s, 10, 64)` over the characters of `s`,
with `n` the value read so far. -/
def ParseUintLoop (n : Nat) : List Char → Nat × Option NumError
  | [] => (n, none)
  | c :: cs =>
    match digitVal c with
    | none => (0, some .ErrSyntax)
    | some d =>
      if d ≥ 10 then (0, some .ErrSyntax)
      else if n ≥ maxUint64 / 10 + 1 then (maxUint64, some .ErrRange)
      else
        let n := n * 10
        let n1 := (n + d) % 2 ^ 64
        if n1 < n ∨ n1 > maxUint64 then (maxUint64, some .ErrRange)
        else ParseUintLoop n1 cs

/-- The function `strconv.ParseUint(s, 10, 64)`. -/
def ParseUint (s : List Char) : Nat × Option NumError :=
  if s = [] then (0, some .ErrSyntax) else ParseUintLoop 0 s

/-- The function `strconv.ParseInt(s, 10, 0)`: an optional sign, then
`ParseUint`, then the range check against `1 << (intSize - 1)`. -/
def ParseInt (s : List Char) : Int × Option NumError :=
  match s with
  | [] => (0, some .ErrSyntax)
  | c :: cs =>
    let neg := decide (c = '-')
    let s1 := if c = '+' ∨ c = '-' then cs else c :: cs
    match ParseUint s1 with
    | (_, some .ErrSyntax) => (0, some .ErrSyntax)
    | (un, _) =>
      let cutoff : Nat := 2 ^ (intSize - 1)
      if ¬ neg ∧ un ≥ cutoff then ((cutoff : Int) - 1, some .ErrRange)
      else if neg ∧ un > cutoff then (-(cutoff : Int), some .ErrRange)
      else (if neg then -(un : Int) else (un : Int), none)

/-- The function `strconv.Atoi`. Its fast path for short strings computes what
`ParseInt(s, 10, 0)` computes, so the model is `ParseInt`. -/
def Atoi (s : List Char) : Int × Option NumError :=
  ParseInt s

/-! ## The repository prober (`main.go`, lines 117-153) -/

/-- The outcome of running Go code that may panic: it returns a value, or the
run-time system stops it (here: index out of range). -/
inductive Outcome (α : Type) where
  | ret : α → Outcome α
  | panic : Outcome α
  deriving DecidableEq

/-- The body of the parse loop of `gitStatus` for one line. -/
def parseLine (s : status) (line : List Char) : Outcome status :=
  if line = [] then .ret s
  else if HasPrefix line "# branch.ab ".toList then
    let fields := Fields line
    match fields.get? 2 with
    | none => .panic
    | some f2 =>
      let s := { s with plus := (Atoi f2).1 }
      match fields.get? 3 with
      | none => .panic
      | some f3 => .ret { s with minus := (Atoi f3).1 }
  else if HasPrefix line "# ".toList then .ret s
  else .ret { s with dirty := true }

/-- The parse loop of `gitStatus`: `for _, line := range lines`. -/
def parseLoop (s : status) : List (List Char) → Outcome status
  | [] => .ret s
  | line :: lines =>
    match parseLine s line with
    | .panic => .panic
    | .ret s1 => parseLoop s1 lines

/-- The body of `gitStatus`, given what its two invocations of the tool
answered: `refreshOk` tells whether `git remote update` ended without error,
`report` is the output of `git status --porcelain=2 --branch` or its error.
The result is the Go pair `(status, error)`. -/
def gitStatusOn (refreshOk : Bool) (report : Except Error GoString) :
    Outcome (status × Option Error) :=
  let s := status.zero
  let s := if ¬ refreshOk then { s with remoteError := true } else s
  match report with
  | .error err => .ret (status.zero, some err)
  | .ok bs =>
    match parseLoop s (Split '\n' bs.toList) with
    | .panic => .panic
    | .ret s1 => .ret (s1, none)

/-- One invocation of the external tool. -/
inductive Call where
  | remoteUpdate : GoString → Call
  | statusPorcelain : GoString → Call
  | pullFfOnly : GoString → Call
  deriving DecidableEq

/-- The external tool `git`: what each invocation answers in a directory,
given all the invocations made before it. -/
structure Git where
  /-- Whether `git remote update` ends without error. -/
  remoteUpdate : List Call → GoString → Bool
  /-- The output of `git status --porcelain=2 --branch`, or its error. -/
  statusReport : List Call → GoString → Except Error GoString
  /-- The error of `git pull --ff-only`, if any. -/
  pull : List Call → GoString → Option Error

/-- The function `gitStatus`: the invocations made so far go in, and come out
extended by the two that it makes. -/
def gitStatus (git : Git) (dir : GoString) (calls : List Call) :
    List Call × Outcome (status × Option Error) :=
  let refreshOk := git.remoteUpdate calls dir
  let calls := calls ++ [Call.remoteUpdate dir]
  let report := git.statusReport calls dir
  let calls := calls ++ [Call.statusPorcelain dir]
  (calls, gitStatusOn refreshOk report)

/-- The function `gitPull`. -/
def gitPull (git : Git) (dir : GoString) (calls : List Call) :
    List Call × Option Error :=
  (calls ++ [Call.pullFfOnly dir], git.pull calls dir)

/-! ## The worker (`main.go`, lines 43-65) -/

/-- What `fmt.Printf("?? %s: %v\n", dir, err)` writes. -/
def unresolvedLine (dir : GoString) (err : Error) : GoString :=
  "?? " ++ dir ++ ": " ++ err ++ "\n"

/-- What `fmt.Printf("%s %s\n", status, dir)` writes. -/
def statusLine (s : status) (dir : GoString) : GoString :=
  s.String ++ " " ++ dir ++ "\n"

/-- The body of the loop of `processGits` for one received `dir`: the
invocations made so far go in and come out extended, together with what the
pass writes to standard output. -/
def processDir (git : Git) (showAll _pull : Bool) (dir : GoString)
    (calls : List Call) : List Call × Outcome (List GoString) :=
  match gitStatus git dir calls with
  | (calls, .panic) => (calls, .panic)
  | (calls, .ret (_, some err)) => (calls, .ret [unresolvedLine dir err])
  | (calls, .ret (s, none)) =>
    let second : List Call × Outcome (status × Option Error) :=
      if s.minus < 0 then
        let calls := (gitPull git dir calls).1
        gitStatus git dir calls
      else (calls, .ret (s, none))
    match second with
    | (calls, .panic) => (calls, .panic)
    | (calls, .ret (_, some err)) => (calls, .ret [unresolvedLine dir err])
    | (calls, .ret (s, none)) =>
      if showAll ∨ ¬ s.clean then (calls, .ret [statusLine s dir])
      else (calls, .ret [])

/-- The state of one worker: the invocations of the tool made so far, the
writes to standard output so far, and whether the worker has panicked. -/
structure Worker where
  calls : List Call
  stdout : List GoString
  panicked : Bool
  deriving DecidableEq

/-- The function `processGits`, run on the paths that it receives from the
channel, in the order in which it receives them. -/
def processGits (git : Git) (showAll pull : Bool) :
    List GoString → Worker → Worker
  | [], w => w
  | dir :: gits, w =>
    match processDir git showAll pull dir w.calls with
    | (calls, .panic) => { w with calls := calls, panicked := true }
    | (calls, .ret out) =>
      processGits git showAll pull gits
        { w with calls := calls, stdout := w.stdout ++ out }

/-! The same behaviour, in the words of the specification. -/

/-- The two invocations that one probe of `dir` makes. -/
def probeCalls (dir : GoString) : List Call :=
  [Call.remoteUpdate dir, Call.statusPorcelain dir]

/-- The result of the first probe of `dir`. -/
def firstProbe (git : Git) (dir : GoString) (calls : List Call) :
    Outcome (status × Option Error) :=
  (gitStatus git dir calls).2

/-- Whether the first probe succeeds with `minus < 0`. -/
def behind (git : Git) (dir : GoString) (calls : List Call) : Bool :=
  match firstProbe git dir calls with
  | .ret (s, none) => decide (s.minus < 0)
  | _ => false

/-- The result of the re-probe of `dir`, made after the first probe and the
pull. -/
def reProbe (git : Git) (dir : GoString) (calls : List Call) :
    Outcome (status × Option Error) :=
  (gitStatus git dir (calls ++ probeCalls dir ++ [Call.pullFfOnly dir])).2

/-- The probe that determines the final status of `dir`: the re-probe when the
first probe succeeds with `minus < 0`, the first probe otherwise. -/
def finalProbe (git : Git) (dir : GoString) (calls : List Call) :
    Outcome (status × Option Error) :=
  if behind git dir calls then reProbe git dir calls else firstProbe git dir calls

/-- The invocations of the tool made for `dir`. -/
def callsFor (git : Git) (dir : GoString) (calls : List Call) : List Call :=
  if behind git dir calls then
    probeCalls dir ++ [Call.pullFfOnly dir] ++ probeCalls dir
  else probeCalls dir

/-- The lines printed for `dir`, given the result of its final probe. -/
def report (showAll : Bool) (dir : GoString) : status × Option Error → List GoString
  | (_, some e) => [unresolvedLine dir e]
  | (s, none) => if showAll ∨ ¬ s.clean then [statusLine s dir] else []

/-- The line that reports `dir`, given the result of its final probe. -/
def lineOf (dir : GoString) : status × Option Error → GoString
  | (_, some e) => unresolvedLine dir e
  | (s, none) => statusLine s dir

/-- The output for a queue of paths: the per-path outputs one after the
other, up to the first path whose probe panics. -/
def reportAll (git : Git) (showAll : Bool) : List GoString → List Call → List GoString
  | [], _ => []
  | dir :: gits, calls =>
    match finalProbe git dir calls with
    | .panic => []
    | .ret r =>
      report showAll dir r ++ reportAll git showAll gits (calls ++ callsFor git dir calls)

/-- The invocations of the tool made for a queue of paths: those for the
paths one after the other, up to and including the first path whose probe
panics. -/
def callsAll (git : Git) : List GoString → List Call → List Call
  | [], _ => []
  | dir :: gits, calls =>
    callsFor git dir calls ++
      match finalProbe git dir calls with
      | .panic => []
      | .ret _ => callsAll git gits (calls ++ callsFor git dir calls)

/-- Whether the probe of some path of the queue panics. -/
def anyPanic (git : Git) : List GoString → List Call → Bool
  | [], _ => false
  | dir :: gits, calls =>
    match finalProbe git dir calls with
    | .panic => true
    | .ret _ => anyPanic git gits (calls ++ callsFor git dir calls)

/-! ## The Go library functions used by the walker

`filepath.Clean`, `filepath.Join`, `filepath.Base`, `filepath.Dir` and
`filepath.Walk` for a Unix system, following the Go standard library. A path
is a `List Char`. -/

/-- The constant `os.PathSeparator`. -/
def PathSeparator : Char := '/'

/-- The name of the metadata directory, `".git"`. -/
def dotGit : List Char := ['.', 'g', 'i', 't']

/-- One step of `filepath.Clean`: the elements kept so far (`out`, last one
first) and the next element of the path. Empty elements and `.` are dropped;
`..` removes the element before it when there is one that is not `..`, is
dropped at the start of a rooted path, and is kept otherwise. -/
def cleanStep (rooted : Bool) (out : List (List Char)) (elem : List Char) :
    List (List Char) :=
  if elem = [] ∨ elem = ['.'] then out
  else if elem = ['.', '.'] then
    match out with
    | [] => if rooted then [] else [elem]
    | top :: below => if top = ['.', '.'] then elem :: out else below
  else elem :: out

/-- The elements of the cleaned path, first one first. -/
def cleanElems (path : List Char) : List (List Char) :=
  ((Split PathSeparator path).foldl (cleanStep (HasPrefix path [PathSeparator])) []).reverse

/-- The elements joined by separators. -/
def joinElems : List (List Char) → List Char
  | [] => []
  | [e] => e
  | e :: es => e ++ PathSeparator :: joinElems es

/-- The text of a cleaned path with the given elements: a leading separator
when rooted, and `.` when there is nothing else. -/
def render (rooted : Bool) (elems : List (List Char)) : List Char :=
  if rooted then PathSeparator :: joinElems elems
  else if elems = [] then ['.'] else joinElems elems

/-- The function `filepath.Clean`: the shortest path equivalent to `path` by
purely lexical processing. -/
def Clean (path : List Char) : List Char :=
  render (HasPrefix path [PathSeparator]) (cleanElems path)

/-- The function `filepath.Join` for two elements: empty elements are
ignored, the rest is joined by separators and cleaned. -/
def Join (a b : List Char) : List Char :=
  if a ≠ [] then Clean (a ++ PathSeparator :: b)
  else if b ≠ [] then Clean b
  else []

/-- The characters after the last separator (all of them when there is
none). -/
def lastElem (path : List Char) : List Char :=
  (path.reverse.takeWhile (fun c => c ≠ PathSeparator)).reverse

/-- The characters up to and including the last separator (none when there
is no separator). -/
def dirPart (path : List Char) : List Char :=
  (path.reverse.dropWhile (fun c => c ≠ PathSeparator)).reverse

/-- The function `filepath.Base`: the last element of the path, after
trailing separators are removed. -/
def Base (path : List Char) : List Char :=
  if path = [] then ['.']
  else
    let path := (path.reverse.dropWhile (fun c => c = PathSeparator)).reverse
    let path := lastElem path
    if path = [] then [PathSeparator] else path

/-- The function `filepath.Dir`: all but the last element of the path,
cleaned. -/
def Dir (path : List Char) : List Char :=
  Clean (dirPart path)

/-! ### The file system -/

mutual
/-- What `filepath.Walk` can see of a file-system entry: something that is not
a directory (a file, or a symbolic link, which `lstat` does not follow), a
directory with its entries, a directory whose entries cannot be read, or an
entry whose `lstat` fails. -/
inductive Node where
  | file : Node
  | dir : Entries → Node
  | unreadable : Error → Node
  | noStat : Error → Node
/-- The entries of a directory, each with its name, in the order in which
`readDirNames` returns them. -/
inductive Entries where
  | nil : Entries
  | cons : List Char → Node → Entries → Entries
end

/-- The Go method `IsDir` of the `FileInfo` of an entry. -/
def Node.IsDir : Node → Bool
  | .dir _ => true
  | .unreadable _ => true
  | _ => false

/-- A name that a directory entry can have: not empty, without separator,
and neither `.` nor `..`. -/
def validName (name : List Char) : Bool :=
  name ≠ [] ∧ PathSeparator ∉ name ∧ name ≠ ['.'] ∧ name ≠ ['.', '.']

mutual
/-- A well-formed tree: in every directory the names are valid and strictly
increasing, which is the order in which `readDirNames` returns them (it sorts
the names as byte strings, and the order of UTF-8 byte strings is the order of
the character sequences). -/
def Node.wf : Node → Bool
  | .dir es => es.wf
  | _ => true
/-- Well-formed entries of one directory. -/
def Entries.wf : Entries → Bool
  | .nil => true
  | .cons name node rest =>
    validName name && node.wf && rest.wf
      && (match rest with
          | .nil => true
          | .cons next _ _ => decide (name < next))
end

/-! ### `filepath.Walk` -/

/-- What a `WalkFunc` returns when it does not return `nil`: `SkipDir`, or an
error. -/
inductive WalkError where
  | SkipDir : WalkError
  | err : Error → WalkError
  deriving DecidableEq

mutual
/-- The function `walk` of `path/filepath`: it calls `walkFn` on `path` and
then descends into the entries of a directory. The state `σ` is what the
closure `walkFn` captures. -/
def walk {σ : Type} (walkFn : σ → List Char → Option Error → σ × Option WalkError)
    (path : List Char) : Node → σ → σ × Option WalkError
  | .file, st => walkFn st path none
  | .noStat e, st => walkFn st path (some e)
  | .unreadable e, st => walkFn st path (some e)
  | .dir es, st =>
    match walkFn st path none with
    | (st, some err1) => (st, some err1)
    | (st, none) => walkNames walkFn path es st
/-- The loop `for _, name := range names` of `walk`. -/
def walkNames {σ : Type} (walkFn : σ → List Char → Option Error → σ × Option WalkError)
    (path : List Char) : Entries → σ → σ × Option WalkError
  | .nil, st => (st, none)
  | .cons name node rest, st =>
    let filename := Join path name
    match node with
    | .noStat e =>
      match walkFn st filename (some e) with
      | (st, some err) =>
        if err ≠ .SkipDir then (st, some err) else walkNames walkFn path rest st
      | (st, none) => walkNames walkFn path rest st
    | node =>
      match walk walkFn filename node st with
      | (st, some err) =>
        if ¬ node.IsDir ∨ err ≠ .SkipDir then (st, some err)
        else walkNames walkFn path rest st
      | (st, none) => walkNames walkFn path rest st
end

/-- The function `filepath.Walk` on the tree `fs` found at `root`. -/
def Walk {σ : Type} (walkFn : σ → List Char → Option Error → σ × Option WalkError)
    (root : List Char) (fs : Node) (st : σ) : σ × Option Error :=
  match walk walkFn root fs st with
  | (st, some .SkipDir) => (st, none)
  | (st, some (.err e)) => (st, some e)
  | (st, none) => (st, none)

/-! ## The discovery walker (`main.go`, lines 67-83) -/

/-- What the closure of `findGits` captures and changes: the variable `curDir`
and the paths sent on the channel `gits`, in the order of sending. -/
structure Finder where
  curDir : List Char
  gits : List (List Char)
  deriving DecidableEq

/-- The function literal that `findGits` passes to `filepath.Walk`. -/
def visit (st : Finder) (path : List Char) (err : Option Error) :
    Finder × Option WalkError :=
  match err with
  | some e => (st, some (.err e))
  | none =>
    if st.curDir ≠ [] ∧ HasPrefix path (st.curDir ++ [PathSeparator]) then
      (st, some .SkipDir)
    else if Base path = dotGit then
      let curDir := Dir path
      ({ curDir := curDir, gits := st.gits ++ [curDir] }, none)
    else (st, none)

/-- The function `findGits` on the tree `fs` found at `dir`: the paths sent on
the channel, in order, and the error returned. -/
def findGits (fs : Node) (dir : List Char) : List (List Char) × Option Error :=
  let r := Walk visit dir fs { curDir := [], gits := [] }
  (r.1.gits, r.2)

/-! ## The orchestrator (`main.go`, lines 17-41) -/

/-- The steps of the goroutine of `main` that concern the workers and the
channel `gits`. -/
inductive MainStep where
  | startWorker : MainStep
  | blockedOnSend : MainStep
  | findGitsReturned : Option Error → MainStep
  | logFatal : Error → MainStep
  | closeGits : MainStep
  | wgWait : MainStep
  deriving DecidableEq

/-- The steps of `main` after the flags are parsed, given the number `par` of
workers, the paths that `findGits` sends and the error that it returns. The
channel is unbuffered: without a worker the first send blocks for ever, and
`findGits` does not return. The call `log.Fatal` ends the process, so nothing
follows it. -/
def mainSteps (par : Int) (sent : List (List Char)) (err : Option Error) :
    List MainStep :=
  List.replicate par.toNat .startWorker ++
    if par.toNat = 0 ∧ sent ≠ [] then [.blockedOnSend]
    else
      match err with
      | some e => [.findGitsReturned (some e), .logFatal e]
      | none => [.findGitsReturned none, .closeGits, .wgWait]

/-- The steps of `main` on the tree `fs` found at `dir`. -/
def main (par : Int) (fs : Node) (dir : List Char) : List MainStep :=
  mainSteps par (findGits fs dir).1 (findGits fs dir).2

/-! ## Notions of the specification used in the statements -/

/-- A line of the status report that begins with `"# branch.ab "`. -/
def isAbLine (line : List Char) : Bool :=
  HasPrefix line "# branch.ab ".toList

/-- A line of the status report that is not empty and does not begin with
`"# "`: a changed path. -/
def isChangeLine (line : List Char) : Bool :=
  line ≠ [] ∧ ¬ HasPrefix line "# ".toList

/-- The last line that begins with `"# branch.ab "`, if there is one. -/
def lastAbLine (lines : List (List Char)) : Option (List Char) :=
  (lines.filter isAbLine).getLast?

/-- The number that a run of decimal digits denotes. -/
def decimalValue (digits : List Char) : Nat :=
  digits.foldl (fun n c => n * 10 + (c.toNat - 0x30)) 0

/-- The number that a non-empty run of decimal digits denotes; `none` for
anything else. -/
def unsignedNumeral (s : List Char) : Option Nat :=
  if s ≠ [] ∧ s.all (fun c => 0x30 ≤ c.toNat ∧ c.toNat ≤ 0x39) then
    some (decimalValue s)
  else none

/-- The integer that a field denotes: decimal digits with an optional sign in
front; `none` when the field is not of this form. -/
def numeral (s : List Char) : Option Int :=
  match s with
  | [] => none
  | c :: cs =>
    if c = '+' then Option.map Int.ofNat (unsignedNumeral cs)
    else if c = '-' then Option.map (fun n => -Int.ofNat n) (unsignedNumeral cs)
    else Option.map Int.ofNat (unsignedNumeral (c :: cs))

/-- The least value of the Go type `int`. -/
def minInt : Int := -(2 ^ (intSize - 1) : Nat)

/-- The greatest value of the Go type `int`. -/
def maxInt : Int := (2 ^ (intSize - 1) : Nat) - 1

/-- A tool whose status report shows a repository that is ahead by one. -/
def aheadGit : Git :=
  { remoteUpdate := fun _ _ => true
    statusReport := fun _ _ => .ok "# branch.ab +1 -0\n"
    pull := fun _ _ => none }

/-- A tool whose status report shows a repository that is behind by two, also
after a pull. -/
def behindGit : Git :=
  { remoteUpdate := fun _ _ => true
    statusReport := fun _ _ => .ok "# branch.ab +0 -2\n"
    pull := fun _ _ => some "exit status 128" }

/-- A tree with a directory `b` whose entries cannot be read. -/
def unreadableTree : Node :=
  .dir (.cons ['b'] (.unreadable "open /a/b: permission denied") .nil)

/-- The elements kept by `filepath.Clean`, last one first, are well formed:
no element is empty, contains a separator or is `.`, and `..` occurs only at
the start of a path that is not rooted. -/
def validOut (rooted : Bool) : List (List Char) → Prop
  | [] => True
  | e :: below =>
    (e ≠ [] ∧ PathSeparator ∉ e ∧ e ≠ ['.'] ∧
      (e = ['.', '.'] → rooted = false ∧ ∀ x ∈ below, x = ['.', '.'])) ∧
    validOut rooted below

/-- Well-formed elements of a cleaned path, first one first. -/
def validElems (rooted : Bool) (elems : List (List Char)) : Prop :=
  validOut rooted elems.reverse

/-- The relation that the walker is meant to keep between a path sent earlier
(`a`) and a path sent later (`b`): `b` does not lie inside `a`, by the match of
`a` and a separator against the start of `b`. -/
def notInside (a b : List Char) : Prop :=
  HasPrefix b (a ++ [PathSeparator]) = false

/-- The positions that come after the subtree of `p` in the order of the walk:
greater than `p` and not below `p`. -/
def afterPos (p q : List (List Char)) : Prop :=
  p < q ∧ ¬ p <+: q

/-- The invariant of the walker, relative to the positions `F` that the walk
may still visit: the paths sent so far are pairwise as required and not empty;
none of them but `curDir` contains a position still to come; and `curDir`, once
set, is the last path sent, a cleaned path whose subtree holds a position that
the walk has already passed. -/
def FinderInv (r : Bool) (st : Finder) (F : List (List Char) → Prop) : Prop :=
  st.gits.Pairwise notInside ∧
  (∀ e ∈ st.gits, e ≠ []) ∧
  (∀ e ∈ st.gits, e ≠ st.curDir →
    ∀ q, F q → validElems r q → HasPrefix (render r q) (e ++ [PathSeparator]) = false) ∧
  ((st.curDir = [] ∧ st.gits = []) ∨
    (st.curDir ∈ st.gits ∧
      ∃ qc pc, validElems r qc ∧ st.curDir = render r qc ∧ qc <+: pc ∧ ∀ q, F q → pc < q))

/-- The contents of a metadata directory: one file. -/
def gitDir : Node :=
  .dir (.cons "HEAD".toList .file .nil)

/-- The tree of the specification, to be walked from `/a`: a repository at
`/a/.git` and another one at `/a/sub/.git`. -/
def nestedTree : Node :=
  .dir (.cons ".git".toList gitDir
    (.cons "sub".toList (.dir (.cons ".git".toList gitDir .nil)) .nil))

/-- A tree to be walked from `/a`: a repository at `/a/.git` and another one
at `/a/+x/.git`, in a directory whose name sorts before `.git`. -/
def earlyTree : Node :=
  .dir (.cons "+x".toList (.dir (.cons ".git".toList gitDir .nil))
    (.cons ".git".toList gitDir .nil))

/-! # Theorems -/

set_option linter.unnecessarySeqFocus false

theorem status_String_eq (s : status) :
    s.String = String.mk [dirtyChar s, syncChar s] := by
  unfold status.String dirtyChar syncChar
  cases s.dirty <;> cases s.remoteError <;> simp <;> split_ifs <;> rfl

theorem clean_iff (s : status) :
    s.clean = true ↔
      (s.dirty = false ∧ s.remoteError = false ∧ s.plus = 0 ∧ s.minus = 0) := by
  unfold status.clean status.zero
  rcases s with ⟨d, r, p, m⟩
  simp

theorem blank_iff (s : status) :
    s.String = "  " ↔
      (s.dirty = false ∧ s.remoteError = false ∧ s.plus ≤ 0 ∧ 0 ≤ s.minus) := by
  rw [status_String_eq]
  unfold dirtyChar syncChar
  rcases s with ⟨d, r, p, m⟩
  have e : ("  " : String) = String.mk [' ', ' '] := rfl
  rw [e]
  simp only [String.ext_iff]
  cases d <;> cases r <;> simp <;> split_ifs <;> simp <;> omega

theorem gitStatus_fst (git : Git) (dir : GoString) (calls : List Call) :
    (gitStatus git dir calls).1 = calls ++ probeCalls dir := by
  simp [gitStatus, probeCalls]

theorem processDir_fst (git : Git) (showAll pull : Bool) (dir : GoString)
    (calls : List Call) :
    (processDir git showAll pull dir calls).1 = calls ++ callsFor git dir calls := by
  unfold processDir callsFor behind firstProbe
  rcases h : gitStatus git dir calls with ⟨c1, o1⟩
  have h1 : c1 = calls ++ probeCalls dir := by
    have := gitStatus_fst git dir calls; rw [h] at this; exact this
  subst h1
  rcases o1 with ⟨s, _ | e⟩ | _
  · simp only
    by_cases hm : s.minus < 0
    · simp only [hm, if_true, decide_True, gitPull]
      rcases h2 : gitStatus git dir (calls ++ probeCalls dir ++ [Call.pullFfOnly dir]) with ⟨c2, o2⟩
      have h3 := gitStatus_fst git dir (calls ++ probeCalls dir ++ [Call.pullFfOnly dir])
      rw [h2] at h3
      simp only at h3
      subst h3
      rcases o2 with ⟨s2, _ | e2⟩ | _ <;> simp <;> split_ifs <;> simp
    · simp only [hm, if_false, decide_False]
      split_ifs <;> simp_all
  · simp
  · simp

theorem processDir_snd (git : Git) (showAll pull : Bool) (dir : GoString)
    (calls : List Call) :
    (processDir git showAll pull dir calls).2 =
      match finalProbe git dir calls with
      | .panic => .panic
      | .ret r => .ret (report showAll dir r) := by
  unfold processDir finalProbe behind firstProbe reProbe
  rcases h : gitStatus git dir calls with ⟨c1, o1⟩
  have h1 : c1 = calls ++ probeCalls dir := by
    have := gitStatus_fst git dir calls; rw [h] at this; exact this
  subst h1
  rcases o1 with ⟨s, _ | e⟩ | _
  · simp only
    by_cases hm : s.minus < 0
    · simp only [hm, if_true, decide_True, gitPull]
      rcases h2 : gitStatus git dir (calls ++ probeCalls dir ++ [Call.pullFfOnly dir]) with ⟨c2, o2⟩
      rcases o2 with ⟨s2, _ | e2⟩ | _ <;> simp [report] <;> split_ifs <;> simp
    · simp only [hm, if_false, decide_False]
      simp only [report]; split_ifs <;> simp_all
  · simp [report]
  · simp

theorem ParseUintLoop_digits (cs : List Char) :
    ∀ n : Nat, (∀ c ∈ cs, 0x30 ≤ c.toNat ∧ c.toNat ≤ 0x39) →
      cs.foldl (fun n c => n * 10 + (c.toNat - 0x30)) n < 2 ^ 64 →
      ParseUintLoop n cs = (cs.foldl (fun n c => n * 10 + (c.toNat - 0x30)) n, none) := by
  induction cs with
  | nil => intro n _ _; rfl
  | cons c cs ih =>
    intro n hd hv
    have hc := hd c (List.mem_cons_self _ _)
    have hd' : ∀ c ∈ cs, 0x30 ≤ c.toNat ∧ c.toNat ≤ 0x39 :=
      fun x hx => hd x (List.mem_cons_of_mem _ hx)
    simp only [List.foldl_cons] at hv ⊢
    have hmono : ∀ (l : List Char) (m : Nat),
        m ≤ l.foldl (fun n c => n * 10 + (c.toNat - 0x30)) m := by
      intro l
      induction l with
      | nil => intro m; exact le_refl _
      | cons x l ihl =>
        intro m
        simp only [List.foldl_cons]
        exact le_trans (by omega) (ihl _)
    have hle := hmono cs (n * 10 + (c.toNat - 0x30))
    have hlt : n * 10 + (c.toNat - 0x30) < 2 ^ 64 := lt_of_le_of_lt hle hv
    have hdv : digitVal c = some (c.toNat - 0x30) := by
      unfold digitVal
      simp only [hc.1, hc.2, and_self, if_true]
    unfold ParseUintLoop
    rw [hdv]
    simp only
    have h1 : ¬ (c.toNat - 0x30 ≥ 10) := by omega
    have h2 : ¬ (n ≥ maxUint64 / 10 + 1) := by
      unfold maxUint64; norm_num at hlt ⊢; omega
    have h3 : (n * 10 + (c.toNat - 0x30)) % 2 ^ 64 = n * 10 + (c.toNat - 0x30) :=
      Nat.mod_eq_of_lt hlt
    rw [if_neg h1, if_neg h2, h3]
    have h4 : ¬ (n * 10 + (c.toNat - 0x30) < n * 10 ∨ n * 10 + (c.toNat - 0x30) > maxUint64) := by
      unfold maxUint64; norm_num at hlt ⊢; omega
    rw [if_neg h4]
    exact ih _ hd' hv

theorem ParseUint_numeral (s : List Char) (n : Nat)
    (h : unsignedNumeral s = some n) (hn : n < 2 ^ 64) :
    ParseUint s = (n, none) := by
  unfold unsignedNumeral at h
  split_ifs at h with hs
  simp only [Option.some.injEq] at h
  subst h
  unfold ParseUint
  rw [if_neg hs.1]
  have hall : ∀ c ∈ s, 0x30 ≤ c.toNat ∧ c.toNat ≤ 0x39 := by
    intro c hc
    have := List.all_eq_true.mp hs.2 c hc
    simpa using this
  exact ParseUintLoop_digits s 0 hall hn

theorem Atoi_numeral (s : List Char) (n : Int) (h : numeral s = some n)
    (hlo : minInt ≤ n) (hhi : n ≤ maxInt) : Atoi s = (n, none) := by
  unfold minInt intSize at hlo
  unfold maxInt intSize at hhi
  norm_num at hlo hhi
  cases s with
  | nil => simp [numeral] at h
  | cons c cs =>
    unfold numeral at h
    simp only at h
    unfold Atoi ParseInt
    simp only
    by_cases hp : c = '+'
    · subst hp
      rw [if_pos rfl] at h
      rcases hu : unsignedNumeral cs with _ | m
      · simp [hu] at h
      · simp only [hu, Option.map_some', Option.some.injEq, Int.ofNat_eq_coe] at h
        subst h
        have hm : m < 2 ^ 64 := by norm_num; omega
        have hneg : decide (('+' : Char) = '-') = false := by decide
        simp only [true_or, if_true, ParseUint_numeral cs m hu hm, hneg, intSize]
        norm_num
        omega
    · rw [if_neg hp] at h
      by_cases hm : c = '-'
      · subst hm
        rw [if_pos rfl] at h
        rcases hu : unsignedNumeral cs with _ | m
        · simp [hu] at h
        · simp only [hu, Option.map_some', Option.some.injEq, Int.ofNat_eq_coe] at h
          subst h
          have hm : m < 2 ^ 64 := by norm_num; omega
          simp only [or_true, if_true, ParseUint_numeral cs m hu hm, decide_True, intSize]
          norm_num
          omega
      · rw [if_neg hm] at h
        rcases hu : unsignedNumeral (c :: cs) with _ | m
        · simp [hu] at h
        · simp only [hu, Option.map_some', Option.some.injEq, Int.ofNat_eq_coe] at h
          subst h
          have hm2 : m < 2 ^ 64 := by norm_num; omega
          have hneg : decide (c = '-') = false := by simp [hm]
          simp only [hp, hm, or_self, if_false, ParseUint_numeral (c :: cs) m hu hm2, hneg, intSize]
          norm_num
          omega

theorem digitVal_decimal (c : Char) (d : Nat) (h : digitVal c = some d) (hd : d < 10) :
    (0x30 ≤ c.toNat ∧ c.toNat ≤ 0x39) ∧ d = c.toNat - 0x30 := by
  unfold digitVal at h
  simp only at h
  split_ifs at h with h1 h2
  · simp only [Option.some.injEq] at h
    exact ⟨h1, h.symm⟩
  · simp only [Option.some.injEq] at h
    omega

theorem ParseUintLoop_success (cs : List Char) :
    ∀ n v : Nat, ParseUintLoop n cs = (v, none) →
      (∀ c ∈ cs, 0x30 ≤ c.toNat ∧ c.toNat ≤ 0x39) ∧
        v = cs.foldl (fun n c => n * 10 + (c.toNat - 0x30)) n := by
  induction cs with
  | nil =>
    intro n v h
    simp only [ParseUintLoop, Prod.mk.injEq, and_true] at h
    exact ⟨by simp, h.symm⟩
  | cons c cs ih =>
    intro n v h
    unfold ParseUintLoop at h
    rcases hdv : digitVal c with _ | d
    · rw [hdv] at h; simp at h
    · rw [hdv] at h
      simp only at h
      by_cases h1 : d ≥ 10
      · rw [if_pos h1] at h; simp at h
      · rw [if_neg h1] at h
        by_cases h2 : n ≥ maxUint64 / 10 + 1
        · rw [if_pos h2] at h; simp at h
        · rw [if_neg h2] at h
          by_cases h3 : (n * 10 + d) % 2 ^ 64 < n * 10 ∨ (n * 10 + d) % 2 ^ 64 > maxUint64
          · rw [if_pos h3] at h; simp at h
          · rw [if_neg h3] at h
            obtain ⟨hc, hd⟩ := digitVal_decimal c d hdv (by omega)
            have hmod : (n * 10 + d) % 2 ^ 64 = n * 10 + d := by
              unfold maxUint64 at h2 h3
              norm_num at h2 h3 ⊢
              omega
            rw [hmod] at h
            obtain ⟨i1, i2⟩ := ih _ v h
            refine ⟨?_, ?_⟩
            · intro x hx
              rcases List.mem_cons.mp hx with hx | hx
              · rw [hx]; exact hc
              · exact i1 x hx
            · rw [List.foldl_cons, ← hd]; exact i2

theorem ParseUint_range (s : List Char) (un : Nat) (h : ParseUint s = (un, some .ErrRange)) :
    un = maxUint64 := by
  unfold ParseUint at h
  split_ifs at h
  · simp at h
  · have key : ∀ (cs : List Char) (n : Nat),
        ParseUintLoop n cs = (un, some .ErrRange) → un = maxUint64 := by
      intro cs
      induction cs with
      | nil => intro n h; simp [ParseUintLoop] at h
      | cons c cs ih =>
        intro n h
        unfold ParseUintLoop at h
        rcases hdv : digitVal c with _ | d
        · rw [hdv] at h; simp at h
        · rw [hdv] at h
          simp only at h
          split_ifs at h
          · simp at h
          · simp only [Prod.mk.injEq, and_true] at h; exact h.symm
          · simp only [Prod.mk.injEq, and_true] at h; exact h.symm
          · exact ih _ h
    exact key s 0 h

theorem ParseUint_success (s : List Char) (un : Nat) (h : ParseUint s = (un, none)) :
    unsignedNumeral s = some un := by
  unfold ParseUint at h
  split_ifs at h with hs
  · simp at h
  · obtain ⟨h1, h2⟩ := ParseUintLoop_success s 0 un h
    unfold unsignedNumeral decimalValue
    rw [if_pos ⟨hs, by
      rw [List.all_eq_true]
      intro c hc
      simpa using h1 c hc⟩, h2]

theorem ParseInt_success_aux (neg : Bool) (s1 : List Char) (v : Int)
    (h : (match ParseUint s1 with
      | (_, some .ErrSyntax) => ((0 : Int), some NumError.ErrSyntax)
      | (un, _) =>
        if ¬ neg ∧ un ≥ 2 ^ (intSize - 1) then (((2 ^ (intSize - 1) : Nat) : Int) - 1, some .ErrRange)
        else if neg ∧ un > 2 ^ (intSize - 1) then (-((2 ^ (intSize - 1) : Nat) : Int), some .ErrRange)
        else (if neg then -(un : Int) else (un : Int), none)) = (v, none)) :
    ∃ un : Nat, unsignedNumeral s1 = some un ∧ v = (if neg then -(un : Int) else (un : Int)) ∧
      minInt ≤ v ∧ v ≤ maxInt := by
  have hcut : (2 : Nat) ^ (intSize - 1) = 9223372036854775808 := by
    unfold intSize; norm_num
  have hlo : minInt = -9223372036854775808 := by
    unfold minInt; rw [hcut]; rfl
  have hhi : maxInt = 9223372036854775807 := by
    unfold maxInt; rw [hcut]; rfl
  rw [hcut] at h
  rw [hlo, hhi]
  have hfinal : ∀ un : Nat, unsignedNumeral s1 = some un ∨ un = maxUint64 →
      (if ¬ neg ∧ un ≥ 9223372036854775808 then
          (((9223372036854775808 : Nat) : Int) - 1, some NumError.ErrRange)
        else if neg ∧ un > 9223372036854775808 then
          (-((9223372036854775808 : Nat) : Int), some NumError.ErrRange)
        else (if neg then -(un : Int) else (un : Int), none)) = (v, none) →
      ∃ un : Nat, unsignedNumeral s1 = some un ∧
        v = (if neg then -(un : Int) else (un : Int)) ∧
        -9223372036854775808 ≤ v ∧ v ≤ 9223372036854775807 := by
    intro un hun h
    by_cases h1 : ¬ neg ∧ un ≥ 9223372036854775808
    · rw [if_pos h1] at h; simp at h
    · rw [if_neg h1] at h
      by_cases h2 : neg ∧ un > 9223372036854775808
      · rw [if_pos h2] at h; simp at h
      · rw [if_neg h2] at h
        simp only [Prod.mk.injEq, and_true] at h
        rcases hun with hun | hun
        · refine ⟨un, hun, h.symm, ?_, ?_⟩
          · rw [← h]
            cases neg
            · simp only [Bool.false_eq_true, if_false]
              omega
            · simp only [if_true]
              simp only [true_and, not_lt] at h2
              omega
          · rw [← h]
            cases neg
            · simp only [Bool.false_eq_true, if_false]
              simp only [Bool.false_eq_true, not_false_eq_true, true_and, not_le] at h1
              omega
            · simp only [if_true]
              omega
        · exfalso
          unfold maxUint64 at hun
          norm_num at hun
          cases neg
          · simp only [Bool.false_eq_true, not_false_eq_true, true_and, not_le] at h1
            omega
          · simp only [true_and, not_lt] at h2
            omega
  rcases hp : ParseUint s1 with ⟨un, _ | _ | _⟩
  · rw [hp] at h
    exact hfinal un (Or.inl (ParseUint_success s1 un hp)) h
  · rw [hp] at h; simp at h
  · rw [hp] at h
    exact hfinal un (Or.inr (ParseUint_range s1 un hp)) h

/-- A field that `strconv.Atoi` accepts denotes the integer that `Atoi`
returns, and that integer is in the range of `int`. -/
theorem Atoi_success (s : List Char) (v : Int) (h : Atoi s = (v, none)) :
    numeral s = some v ∧ minInt ≤ v ∧ v ≤ maxInt := by
  unfold Atoi ParseInt at h
  rcases s with _ | ⟨c, cs⟩
  · simp at h
  · simp only at h
    obtain ⟨un, hu, hv, hlo, hhi⟩ := ParseInt_success_aux _ _ v h
    refine ⟨?_, hlo, hhi⟩
    unfold numeral
    simp only
    by_cases hp : c = '+'
    · subst hp
      have hneg : decide (('+' : Char) = '-') = false := by decide
      rw [hneg] at hv
      simp only [true_or, if_true] at hu
      rw [if_pos rfl, hu, hv]; rfl
    · rw [if_neg hp]
      by_cases hm : c = '-'
      · subst hm
        simp only [or_true, if_true] at hu
        simp only [decide_True, if_true] at hv
        rw [if_pos rfl, hu, hv]; rfl
      · have hneg : decide (c = '-') = false := by simp [hm]
        rw [hneg] at hv
        simp only [hp, hm, or_self, if_false] at hu
        rw [if_neg hm, hu, hv]; rfl

/-- The fields that `strconv.Atoi` accepts are the decimal numerals, with an
optional sign, that denote an integer in the range of `int`. -/
theorem Atoi_accepts_iff (s : List Char) :
    (Atoi s).2 = none ↔ ∃ n, numeral s = some n ∧ minInt ≤ n ∧ n ≤ maxInt := by
  constructor
  · intro h
    have he : Atoi s = ((Atoi s).1, none) := by rw [← h]
    exact ⟨(Atoi s).1, Atoi_success s _ he⟩
  · rintro ⟨n, hn, hlo, hhi⟩
    rw [Atoi_numeral s n hn hlo hhi]

theorem lastAbLine_cons (line : List Char) (lines : List (List Char)) :
    lastAbLine (line :: lines) =
      if isAbLine line then some ((lastAbLine lines).getD line) else lastAbLine lines := by
  unfold lastAbLine
  by_cases h : isAbLine line = true
  · rw [List.filter_cons_of_pos h, if_pos h, List.getLast?_cons]
  · rw [List.filter_cons_of_neg h, if_neg h]

theorem isAbLine_ne_nil (line : List Char) (h : isAbLine line = true) : line ≠ [] := by
  intro hl
  subst hl
  revert h
  decide

theorem isAbLine_hash (line : List Char) (h : isAbLine line = true) :
    HasPrefix line "# ".toList = true := by
  unfold isAbLine HasPrefix at *
  rw [List.isPrefixOf_iff_prefix] at *
  exact List.IsPrefix.trans (by decide) h

theorem parseLine_ab (s : status) (line f2 f3 : List Char) (h : isAbLine line = true)
    (h2 : (Fields line).get? 2 = some f2) (h3 : (Fields line).get? 3 = some f3) :
    parseLine s line = .ret { s with plus := (Atoi f2).1, minus := (Atoi f3).1 } := by
  unfold parseLine
  rw [if_neg (isAbLine_ne_nil line h)]
  unfold isAbLine at h
  rw [if_pos h]
  simp only [h2, h3]

theorem parseLine_other (s : status) (line : List Char) (h : isAbLine line = false) :
    parseLine s line = .ret { s with dirty := s.dirty || isChangeLine line } := by
  unfold parseLine isChangeLine
  unfold isAbLine at h
  by_cases h1 : line = []
  · subst h1; simp [HasPrefix]
  · rw [if_neg h1]
    simp only [h, Bool.false_eq_true, if_false]
    have e : "# ".toList = ['#', ' '] := rfl
    rw [e]
    rcases s with ⟨d, r, p, m⟩
    by_cases h2 : HasPrefix line ['#', ' '] = true
    · rw [if_pos h2]
      simp [h1, h2]
    · rw [if_neg h2]
      simp [h1, h2]

theorem parseLoop_spec (lines : List (List Char)) :
    ∀ s : status,
      (∀ line ∈ lines, isAbLine line = true → 4 ≤ (Fields line).length) →
      ∃ s1, parseLoop s lines = .ret s1 ∧ s1.remoteError = s.remoteError ∧
        s1.dirty = (s.dirty || lines.any isChangeLine) ∧
        (match lastAbLine lines with
         | none => s1.plus = s.plus ∧ s1.minus = s.minus
         | some l => ∃ f2 f3, (Fields l).get? 2 = some f2 ∧ (Fields l).get? 3 = some f3 ∧
             s1.plus = (Atoi f2).1 ∧ s1.minus = (Atoi f3).1) := by
  induction lines with
  | nil => intro s _; exact ⟨s, rfl, rfl, by simp, by simp [lastAbLine]⟩
  | cons line lines ih =>
    intro s h
    have hrest : ∀ l ∈ lines, isAbLine l = true → 4 ≤ (Fields l).length :=
      fun l hl => h l (List.mem_cons_of_mem _ hl)
    by_cases hab : isAbLine line = true
    · have hlen := h line (List.mem_cons_self _ _) hab
      obtain ⟨f2, h2⟩ : ∃ f2, (Fields line).get? 2 = some f2 :=
        ⟨(Fields line).get ⟨2, by omega⟩, List.get?_eq_get _⟩
      obtain ⟨f3, h3⟩ : ∃ f3, (Fields line).get? 3 = some f3 :=
        ⟨(Fields line).get ⟨3, by omega⟩, List.get?_eq_get _⟩
      obtain ⟨s1, e1, r1, d1, a1⟩ :=
        ih { s with plus := (Atoi f2).1, minus := (Atoi f3).1 } hrest
      refine ⟨s1, ?_, r1, ?_, ?_⟩
      · unfold parseLoop
        rw [parseLine_ab s line f2 f3 hab h2 h3]
        exact e1
      · have hc : isChangeLine line = false := by
          have hh := isAbLine_hash line hab
          unfold isChangeLine
          simp only [hh, not_true_eq_false, and_false, decide_False]
        rw [d1, List.any_cons, hc]
        rfl
      · rw [lastAbLine_cons, if_pos hab]
        rcases hl : lastAbLine lines with _ | l
        · rw [hl] at a1
          exact ⟨f2, f3, h2, h3, a1.1, a1.2⟩
        · rw [hl] at a1
          exact a1
    · have hab' : isAbLine line = false := by simpa using hab
      obtain ⟨s1, e1, r1, d1, a1⟩ :=
        ih { s with dirty := s.dirty || isChangeLine line } hrest
      refine ⟨s1, ?_, r1, ?_, ?_⟩
      · unfold parseLoop
        rw [parseLine_other s line hab']
        exact e1
      · rw [d1, List.any_cons, Bool.or_assoc]
      · rw [lastAbLine_cons, if_neg hab]
        exact a1

theorem parseLoop_remoteError (lines : List (List Char)) :
    ∀ (s : status) (b : Bool),
      parseLoop { s with remoteError := b } lines =
        match parseLoop s lines with
        | .panic => .panic
        | .ret s1 => .ret { s1 with remoteError := b } := by
  induction lines with
  | nil => intro s b; rfl
  | cons line lines ih =>
    intro s b
    have hl : parseLine { s with remoteError := b } line =
        match parseLine s line with
        | .panic => .panic
        | .ret s1 => .ret { s1 with remoteError := b } := by
      unfold parseLine
      split_ifs
      · rfl
      · dsimp only
        generalize (Fields line).get? 2 = o2
        generalize (Fields line).get? 3 = o3
        rcases o2 with _ | f2
        · rfl
        · rcases o3 with _ | f3 <;> rfl
      · rfl
      · rfl
    unfold parseLoop
    rw [hl]
    rcases parseLine s line with s1 | _
    · exact ih s1 b
    · rfl

/-! ## Lemmas about the path functions -/

theorem Split_ne_nil (sep : Char) (s : List Char) : Split sep s ≠ [] := by
  induction s with
  | nil => simp [Split]
  | cons c cs ih =>
    unfold Split
    split_ifs
    · simp
    · rcases h : Split sep cs with _ | ⟨p, ps⟩
      · exact absurd h ih
      · simp

theorem Split_cons_sep (sep : Char) (cs : List Char) :
    Split sep (sep :: cs) = [] :: Split sep cs := by
  rw [Split, if_pos rfl]

theorem Split_cons_ne (sep c : Char) (cs p : List Char) (ps : List (List Char))
    (hc : c ≠ sep) (h : Split sep cs = p :: ps) :
    Split sep (c :: cs) = (c :: p) :: ps := by
  rw [Split, if_neg hc, h]

theorem Split_append_sep (sep : Char) (a b : List Char) :
    Split sep (a ++ sep :: b) = Split sep a ++ Split sep b := by
  induction a with
  | nil => rw [List.nil_append, Split_cons_sep]; rfl
  | cons c cs ih =>
    rw [List.cons_append]
    by_cases hc : c = sep
    · subst hc
      rw [Split_cons_sep, Split_cons_sep, ih]; rfl
    · rcases h : Split sep cs with _ | ⟨p, ps⟩
      · exact absurd h (Split_ne_nil sep cs)
      · rw [Split_cons_ne sep c cs p ps hc h,
          Split_cons_ne sep c (cs ++ sep :: b) p (ps ++ Split sep b) hc (by rw [ih, h]; rfl)]
        rfl

theorem Split_no_sep (sep : Char) (s : List Char) (h : sep ∉ s) : Split sep s = [s] := by
  induction s with
  | nil => rfl
  | cons c cs ih =>
    have hc : c ≠ sep := fun e => h (e ▸ List.mem_cons_self _ _)
    have hcs : sep ∉ cs := fun m => h (List.mem_cons_of_mem _ m)
    unfold Split
    rw [if_neg hc, ih hcs]

theorem Split_mem_no_sep (sep : Char) (s : List Char) :
    ∀ piece ∈ Split sep s, sep ∉ piece := by
  induction s with
  | nil => intro piece hp; simp [Split] at hp; subst hp; simp
  | cons c cs ih =>
    intro piece hp
    unfold Split at hp
    by_cases hc : c = sep
    · rw [if_pos hc] at hp
      rcases List.mem_cons.mp hp with h | h
      · subst h; simp
      · exact ih piece h
    · rw [if_neg hc] at hp
      rcases h : Split sep cs with _ | ⟨p, ps⟩
      · exact absurd h (Split_ne_nil sep cs)
      · rw [h] at hp ih
        rcases List.mem_cons.mp hp with h1 | h1
        · subst h1
          intro hm
          rcases List.mem_cons.mp hm with h2 | h2
          · exact hc h2.symm
          · exact ih p (List.mem_cons_self _ _) h2
        · exact ih piece (List.mem_cons_of_mem _ h1)

theorem joinElems_cons_cons (e e2 : List Char) (es : List (List Char)) :
    joinElems (e :: e2 :: es) = e ++ PathSeparator :: joinElems (e2 :: es) := rfl

theorem joinElems_append (a b : List (List Char)) (ha : a ≠ []) (hb : b ≠ []) :
    joinElems (a ++ b) = joinElems a ++ PathSeparator :: joinElems b := by
  induction a with
  | nil => exact absurd rfl ha
  | cons e es ih =>
    rcases es with _ | ⟨e2, es⟩
    · rcases b with _ | ⟨b1, bs⟩
      · exact absurd rfl hb
      · rfl
    · rw [List.cons_append, List.cons_append, joinElems_cons_cons, ← List.cons_append,
        ih (by simp), joinElems_cons_cons]
      simp

theorem Split_joinElems (elems : List (List Char)) (hne : elems ≠ [])
    (h : ∀ e ∈ elems, PathSeparator ∉ e) :
    Split PathSeparator (joinElems elems) = elems := by
  induction elems with
  | nil => exact absurd rfl hne
  | cons e es ih =>
    rcases es with _ | ⟨e2, es⟩
    · exact Split_no_sep _ _ (h e (List.mem_cons_self _ _))
    · rw [joinElems_cons_cons, Split_append_sep,
        Split_no_sep _ _ (h e (List.mem_cons_self _ _)),
        ih (by simp) (fun x hx => h x (List.mem_cons_of_mem _ hx))]
      rfl

theorem cleanStep_skip (r : Bool) (out : List (List Char)) (elem : List Char)
    (h : elem = [] ∨ elem = ['.']) : cleanStep r out elem = out := by
  unfold cleanStep
  rw [if_pos h]

theorem cleanStep_dotdot_nil (r : Bool) :
    cleanStep r [] ['.', '.'] = if r then [] else [['.', '.']] := by
  unfold cleanStep
  rw [if_neg (by decide), if_pos rfl]

theorem cleanStep_dotdot_cons (r : Bool) (top : List Char) (below : List (List Char)) :
    cleanStep r (top :: below) ['.', '.'] =
      if top = ['.', '.'] then ['.', '.'] :: top :: below else below := by
  unfold cleanStep
  rw [if_neg (by decide), if_pos rfl]

theorem cleanStep_plain (r : Bool) (out : List (List Char)) (elem : List Char)
    (h1 : elem ≠ []) (h2 : elem ≠ ['.']) (h3 : elem ≠ ['.', '.']) :
    cleanStep r out elem = elem :: out := by
  unfold cleanStep
  rw [if_neg (by push_neg; exact ⟨h1, h2⟩), if_neg h3]

theorem cleanStep_valid (r : Bool) (out : List (List Char)) (elem : List Char)
    (hv : validOut r out) (he : PathSeparator ∉ elem) :
    validOut r (cleanStep r out elem) := by
  by_cases h1 : elem = [] ∨ elem = ['.']
  · rw [cleanStep_skip r out elem h1]; exact hv
  · push_neg at h1
    by_cases h2 : elem = ['.', '.']
    · subst h2
      rcases out with _ | ⟨top, below⟩
      · rw [cleanStep_dotdot_nil]
        cases r
        · exact ⟨⟨by simp, he, by decide, fun _ => ⟨rfl, by simp⟩⟩, trivial⟩
        · trivial
      · rw [cleanStep_dotdot_cons]
        by_cases h3 : top = ['.', '.']
        · rw [if_pos h3]
          have h4 := hv.1.2.2.2 h3
          refine ⟨⟨by simp, he, by decide, fun _ => ⟨h4.1, ?_⟩⟩, hv⟩
          intro x hx
          rcases List.mem_cons.mp hx with hx | hx
          · rw [hx, h3]
          · exact h4.2 x hx
        · rw [if_neg h3]; exact hv.2
    · rw [cleanStep_plain r out elem h1.1 h1.2 h2]
      exact ⟨⟨h1.1, he, h1.2, fun e => absurd e h2⟩, hv⟩

theorem foldl_cleanStep_valid (r : Bool) (pieces : List (List Char)) :
    ∀ out, validOut r out → (∀ p ∈ pieces, PathSeparator ∉ p) →
      validOut r (pieces.foldl (cleanStep r) out) := by
  induction pieces with
  | nil => intro out hv _; exact hv
  | cons p ps ih =>
    intro out hv hp
    rw [List.foldl_cons]
    exact ih _ (cleanStep_valid r out p hv (hp p (List.mem_cons_self _ _)))
      (fun x hx => hp x (List.mem_cons_of_mem _ hx))

theorem cleanElems_valid (path : List Char) :
    validElems (HasPrefix path [PathSeparator]) (cleanElems path) := by
  unfold validElems cleanElems
  rw [List.reverse_reverse]
  exact foldl_cleanStep_valid _ _ [] trivial (Split_mem_no_sep _ _)

theorem cleanStep_push (r : Bool) (out : List (List Char)) (e : List Char)
    (hv : validOut r (e :: out)) : cleanStep r out e = e :: out := by
  obtain ⟨⟨h1, _, h3, h4⟩, _⟩ := hv
  by_cases h2 : e = ['.', '.']
  · obtain ⟨hr, hall⟩ := h4 h2
    subst h2
    rcases out with _ | ⟨top, below⟩
    · rw [cleanStep_dotdot_nil, hr]; rfl
    · rw [cleanStep_dotdot_cons, if_pos (hall top (List.mem_cons_self _ _))]
  · exact cleanStep_plain r out e h1 h3 h2

theorem foldl_cleanStep_canonical (r : Bool) (out : List (List Char))
    (hv : validOut r out) : out.reverse.foldl (cleanStep r) [] = out := by
  induction out with
  | nil => rfl
  | cons e below ih =>
    rw [List.reverse_cons, List.foldl_append, ih hv.2]
    exact cleanStep_push r below e hv

theorem rooted_nil : HasPrefix [] [PathSeparator] = false := rfl

theorem rooted_cons (c : Char) (cs : List Char) :
    HasPrefix (c :: cs) [PathSeparator] = decide (c = PathSeparator) := by
  unfold HasPrefix
  by_cases h : c = PathSeparator
  · subst h; simp [List.isPrefixOf]
  · have h2 : ¬ PathSeparator = c := fun e => h e.symm
    simp [List.isPrefixOf, h, h2]

theorem rooted_append (a b : List Char) (ha : a ≠ []) :
    HasPrefix (a ++ b) [PathSeparator] = HasPrefix a [PathSeparator] := by
  rcases a with _ | ⟨c, cs⟩
  · exact absurd rfl ha
  · rw [List.cons_append, rooted_cons, rooted_cons]

theorem validOut_mem (r : Bool) (out : List (List Char)) (hv : validOut r out) :
    ∀ e ∈ out, e ≠ [] ∧ PathSeparator ∉ e ∧ e ≠ ['.'] := by
  induction out with
  | nil => intro e he; cases he
  | cons x below ih =>
    intro e he
    rcases List.mem_cons.mp he with h | h
    · subst h; exact ⟨hv.1.1, hv.1.2.1, hv.1.2.2.1⟩
    · exact ih hv.2 e h

theorem validElems_mem (r : Bool) (d : List (List Char)) (hv : validElems r d) :
    ∀ e ∈ d, e ≠ [] ∧ PathSeparator ∉ e ∧ e ≠ ['.'] :=
  fun e he => validOut_mem r d.reverse hv e (List.mem_reverse.mpr he)

theorem validName_iff (n : List Char) :
    validName n = true ↔
      n ≠ [] ∧ PathSeparator ∉ n ∧ n ≠ ['.'] ∧ n ≠ ['.', '.'] := by
  unfold validName
  simp

theorem validElems_snoc (r : Bool) (d : List (List Char)) (n : List Char)
    (hv : validElems r d) (hn : validName n = true) : validElems r (d ++ [n]) := by
  obtain ⟨h1, h2, h3, h4⟩ := (validName_iff n).mp hn
  unfold validElems
  rw [List.reverse_append]
  exact ⟨⟨h1, h2, h3, fun e => absurd e h4⟩, hv⟩

theorem validElems_nil (r : Bool) : validElems r [] := trivial

theorem joinElems_rooted (d : List (List Char)) (r : Bool) (hv : validElems r d) :
    HasPrefix (joinElems d) [PathSeparator] = false := by
  rcases d with _ | ⟨e, es⟩
  · rfl
  · obtain ⟨h1, h2, _⟩ := validElems_mem r _ hv e (List.mem_cons_self _ _)
    rcases e with _ | ⟨c, cs⟩
    · exact absurd rfl h1
    · have hc : c ≠ PathSeparator := fun h => h2 (h ▸ List.mem_cons_self _ _)
      rcases es with _ | ⟨e2, es⟩
      · show HasPrefix (c :: cs) [PathSeparator] = false
        rw [rooted_cons]; simp [hc]
      · rw [joinElems_cons_cons, List.cons_append, rooted_cons]; simp [hc]

theorem rooted_render (r : Bool) (d : List (List Char)) (hv : validElems r d) :
    HasPrefix (render r d) [PathSeparator] = r := by
  unfold render
  cases r
  · simp only [Bool.false_eq_true, if_false]
    split_ifs with h
    · rfl
    · exact joinElems_rooted d false hv
  · simp only [if_true]
    rw [rooted_cons]; simp

theorem cleanElems_render (r : Bool) (d : List (List Char)) (hv : validElems r d) :
    cleanElems (render r d) = d := by
  unfold cleanElems
  rw [rooted_render r d hv]
  have hsep : ∀ e ∈ d, PathSeparator ∉ e := fun e he => (validElems_mem r d hv e he).2.1
  have hfold : d.foldl (cleanStep r) [] = d.reverse := by
    have := foldl_cleanStep_canonical r d.reverse hv
    rwa [List.reverse_reverse] at this
  unfold render
  cases r
  · simp only [Bool.false_eq_true, if_false]
    by_cases h : d = []
    · subst h; rfl
    · rw [if_neg h, Split_joinElems d h hsep, hfold, List.reverse_reverse]
  · simp only [if_true]
    rw [Split_cons_sep]
    by_cases h : d = []
    · subst h; rfl
    · rw [Split_joinElems d h hsep, List.foldl_cons, cleanStep_skip _ _ _ (Or.inl rfl), hfold,
        List.reverse_reverse]

theorem cleanStep_name (r : Bool) (out : List (List Char)) (n : List Char)
    (hn : validName n = true) : cleanStep r out n = n :: out := by
  obtain ⟨h1, _, h3, h4⟩ := (validName_iff n).mp hn
  exact cleanStep_plain r out n h1 h3 h4

theorem Join_eq (path n : List Char) (hn : validName n = true) :
    Join path n = render (HasPrefix path [PathSeparator]) (cleanElems path ++ [n]) := by
  obtain ⟨h1, h2, _, _⟩ := (validName_iff n).mp hn
  unfold Join
  by_cases hp : path = []
  · subst hp
    rw [if_neg (by simp), if_pos h1]
    unfold Clean
    have hr : HasPrefix n [PathSeparator] = false := by
      rcases n with _ | ⟨c, cs⟩
      · exact absurd rfl h1
      · have hc : c ≠ PathSeparator := fun h => h2 (h ▸ List.mem_cons_self _ _)
        rw [rooted_cons]; simp [hc]
    rw [hr, rooted_nil]
    unfold cleanElems
    rw [hr, rooted_nil, Split_no_sep _ _ h2]
    simp only [List.foldl_cons, List.foldl_nil, Split]
    rw [cleanStep_skip _ _ _ (Or.inl rfl), cleanStep_name _ _ _ hn]
    rfl
  · rw [if_pos hp]
    unfold Clean
    rw [rooted_append path _ hp]
    unfold cleanElems
    rw [rooted_append path _ hp, Split_append_sep, Split_no_sep _ _ h2, List.foldl_append]
    simp only [List.foldl_cons, List.foldl_nil]
    rw [cleanStep_name _ _ _ hn, List.reverse_cons]

theorem takeWhile_dropWhile_stop (p : Char → Bool) (a b : List Char)
    (ha : ∀ x ∈ a, p x = true) (hb : b = [] ∨ ∃ c cs, b = c :: cs ∧ p c = false) :
    (a ++ b).takeWhile p = a ∧ (a ++ b).dropWhile p = b := by
  induction a with
  | nil =>
    rcases hb with hb | ⟨c, cs, hb, hc⟩
    · subst hb; exact ⟨rfl, rfl⟩
    · subst hb
      simp [List.takeWhile, List.dropWhile, hc]
  | cons x xs ih =>
    have hx := ha x (List.mem_cons_self _ _)
    obtain ⟨i1, i2⟩ := ih (fun y hy => ha y (List.mem_cons_of_mem _ hy))
    rw [List.cons_append]
    constructor
    · rw [List.takeWhile_cons, if_pos hx, i1]
    · rw [List.dropWhile_cons, if_pos hx, i2]

/-- The text in front of the last element of a cleaned path. -/
theorem render_snoc (r : Bool) (d : List (List Char)) (n : List Char) :
    render r (d ++ [n]) =
      (if d = [] then (if r then [PathSeparator] else [])
       else render r d ++ [PathSeparator]) ++ n := by
  by_cases hd : d = []
  · subst hd
    cases r <;> simp [render, joinElems]
  · rw [if_neg hd]
    unfold render
    rw [joinElems_append d [n] hd (by simp)]
    cases r
    · simp [hd, joinElems]
    · simp [joinElems]

theorem lastElem_dirPart_append (x n : List Char) (hn : PathSeparator ∉ n)
    (hx : x = [] ∨ ∃ y, x = y ++ [PathSeparator]) :
    lastElem (x ++ n) = n ∧ dirPart (x ++ n) = x := by
  have key := takeWhile_dropWhile_stop (fun c => decide (c ≠ PathSeparator)) n.reverse x.reverse
    (by
      intro c hc
      have : c ≠ PathSeparator := fun h => hn (h ▸ List.mem_reverse.mp hc)
      simp [this])
    (by
      rcases hx with hx | ⟨y, hx⟩
      · left; rw [hx]; rfl
      · right
        refine ⟨PathSeparator, y.reverse, ?_, by simp⟩
        rw [hx, List.reverse_append]; rfl)
  unfold lastElem dirPart
  rw [List.reverse_append]
  constructor
  · have := key.1
    simp only [ne_eq] at this ⊢
    rw [this, List.reverse_reverse]
  · have := key.2
    simp only [ne_eq] at this ⊢
    rw [this, List.reverse_reverse]

theorem dirText_shape (r : Bool) (d : List (List Char)) :
    (if d = [] then (if r then [PathSeparator] else [])
       else render r d ++ [PathSeparator]) = [] ∨
    ∃ y, (if d = [] then (if r then [PathSeparator] else [])
       else render r d ++ [PathSeparator]) = y ++ [PathSeparator] := by
  by_cases hd : d = []
  · rw [if_pos hd]
    cases r
    · left; rfl
    · right; exact ⟨[], rfl⟩
  · rw [if_neg hd]
    right; exact ⟨_, rfl⟩

theorem Base_append (x n : List Char) (h1 : n ≠ []) (h2 : PathSeparator ∉ n)
    (hshape : x = [] ∨ ∃ y, x = y ++ [PathSeparator]) : Base (x ++ n) = n := by
  unfold Base
  have hne : x ++ n ≠ [] := by
    intro h
    exact h1 (List.append_eq_nil.mp h).2
  rw [if_neg hne]
  have hstrip : ((x ++ n).reverse.dropWhile (fun c => decide (c = PathSeparator))).reverse
      = x ++ n := by
    rw [List.reverse_append]
    rcases hrev : n.reverse with _ | ⟨c, cs⟩
    · exact absurd (List.reverse_eq_nil_iff.mp hrev) h1
    · have hc : c ≠ PathSeparator := by
        intro h
        apply h2
        rw [← List.mem_reverse, hrev, h]
        exact List.mem_cons_self _ _
      rw [List.cons_append, List.dropWhile_cons, if_neg (by simp [hc]), ← List.cons_append,
        ← hrev, ← List.reverse_append, List.reverse_reverse]
  simp only [hstrip]
  rw [(lastElem_dirPart_append x n h2 hshape).1, if_neg h1]

theorem Base_render (r : Bool) (d : List (List Char)) (n : List Char)
    (hn : validName n = true) : Base (render r (d ++ [n])) = n := by
  obtain ⟨h1, h2, _, _⟩ := (validName_iff n).mp hn
  rw [render_snoc]
  exact Base_append _ n h1 h2 (dirText_shape r d)

theorem Clean_eq (path : List Char) (r : Bool) (d : List (List Char))
    (hr : HasPrefix path [PathSeparator] = r) (hd : cleanElems path = d) :
    Clean path = render r d := by
  unfold Clean
  rw [hr, hd]

theorem cleanElems_trailing (path : List Char) (hp : path ≠ []) :
    HasPrefix (path ++ [PathSeparator]) [PathSeparator] = HasPrefix path [PathSeparator] ∧
      cleanElems (path ++ [PathSeparator]) = cleanElems path := by
  refine ⟨rooted_append path _ hp, ?_⟩
  unfold cleanElems
  rw [rooted_append path _ hp, Split_append_sep, List.foldl_append]
  simp only [Split, List.foldl_cons, List.foldl_nil]
  rw [cleanStep_skip _ _ _ (Or.inl rfl)]

theorem render_ne_nil (r : Bool) (d : List (List Char)) (hv : validElems r d) :
    render r d ≠ [] := by
  unfold render
  cases r
  · simp only [Bool.false_eq_true, if_false]
    split_ifs with h
    · simp
    · rcases d with _ | ⟨e, es⟩
      · exact absurd rfl h
      · have h1 := (validElems_mem false _ hv e (List.mem_cons_self _ _)).1
        rcases es with _ | ⟨e2, es⟩
        · exact h1
        · rw [joinElems_cons_cons]
          intro h2
          exact h1 (List.append_eq_nil.mp h2).1
  · simp

theorem Dir_render (r : Bool) (d : List (List Char)) (n : List Char)
    (hv : validElems r d) (hn : validName n = true) :
    Dir (render r (d ++ [n])) = render r d := by
  obtain ⟨_, h2, _, _⟩ := (validName_iff n).mp hn
  unfold Dir
  rw [render_snoc, (lastElem_dirPart_append _ n h2 (dirText_shape r d)).2]
  by_cases hd : d = []
  · subst hd
    rw [if_pos rfl]
    cases r
    · rfl
    · rfl
  · rw [if_neg hd]
    have ht := cleanElems_trailing (render r d) (render_ne_nil r d hv)
    exact Clean_eq _ r d (ht.1.trans (rooted_render r d hv))
      (ht.2.trans (cleanElems_render r d hv))

theorem first_separator_unique (a : List Char) :
    ∀ (b x y : List Char), PathSeparator ∉ a → PathSeparator ∉ b →
      (y = [] ∨ ∃ z, y = PathSeparator :: z) →
      a ++ PathSeparator :: x = b ++ y → a = b ∧ y = PathSeparator :: x := by
  induction a with
  | nil =>
    intro b x y _ hb hy h
    rcases b with _ | ⟨c, cs⟩
    · exact ⟨rfl, h.symm⟩
    · simp only [List.nil_append, List.cons_append, List.cons.injEq] at h
      exact absurd (h.1 ▸ List.mem_cons_self _ _) hb
  | cons c cs ih =>
    intro b x y ha hb hy h
    rcases b with _ | ⟨c2, cs2⟩
    · rcases hy with hy | ⟨z, hy⟩
      · subst hy; simp at h
      · subst hy
        simp only [List.nil_append, List.cons_append, List.cons.injEq] at h
        exact absurd (h.1 ▸ List.mem_cons_self _ _) ha
    · simp only [List.cons_append, List.cons.injEq] at h
      obtain ⟨e1, e2⟩ := ih cs2 x y (fun m => ha (List.mem_cons_of_mem _ m))
        (fun m => hb (List.mem_cons_of_mem _ m)) hy h.2
      exact ⟨by rw [h.1, e1], e2⟩

theorem joinElems_cons_shape (e : List Char) (es : List (List Char)) :
    ∃ y, joinElems (e :: es) = e ++ y ∧
      ((es = [] ∧ y = []) ∨ (es ≠ [] ∧ y = PathSeparator :: joinElems es)) := by
  rcases es with _ | ⟨e2, es⟩
  · exact ⟨[], by simp [joinElems], Or.inl ⟨rfl, rfl⟩⟩
  · exact ⟨_, joinElems_cons_cons e e2 es, Or.inr ⟨by simp, rfl⟩⟩

theorem joinElems_starts (q : List (List Char)) :
    ∀ (p : List (List Char)) (s : List Char), q ≠ [] →
      (∀ e ∈ q, PathSeparator ∉ e) → (∀ e ∈ p, PathSeparator ∉ e) →
      joinElems q ++ PathSeparator :: s = joinElems p →
      ∃ t, t ≠ [] ∧ p = q ++ t := by
  induction q with
  | nil => intro p s h; exact absurd rfl h
  | cons e qs ih =>
    intro p s _ hq hp h
    rcases p with _ | ⟨e', ps⟩
    · exfalso
      have : joinElems (e :: qs) ++ PathSeparator :: s ≠ [] := by simp
      exact this h
    · obtain ⟨y, hy, hshape⟩ := joinElems_cons_shape e' ps
      have he := hq e (List.mem_cons_self _ _)
      have he' := hp e' (List.mem_cons_self _ _)
      have hyshape : y = [] ∨ ∃ z, y = PathSeparator :: z := by
        rcases hshape with ⟨_, h2⟩ | ⟨_, h2⟩
        · exact Or.inl h2
        · exact Or.inr ⟨_, h2⟩
      rcases qs with _ | ⟨e2, qs⟩
      · have h' : e ++ PathSeparator :: s = e' ++ y := by
          rw [← hy, ← h]; rfl
        obtain ⟨e1, e2⟩ := first_separator_unique e e' s y he he' hyshape h'
        rcases hshape with ⟨_, h2⟩ | ⟨h1, _⟩
        · rw [h2] at e2; cases e2
        · exact ⟨ps, h1, by rw [e1]; rfl⟩
      · have h' : e ++ PathSeparator :: (joinElems (e2 :: qs) ++ PathSeparator :: s) = e' ++ y := by
          rw [← hy, ← h, joinElems_cons_cons]; simp
        obtain ⟨e1, e2'⟩ := first_separator_unique e e' _ y he he' hyshape h'
        rcases hshape with ⟨_, h2⟩ | ⟨h1, h2⟩
        · rw [h2] at e2'; cases e2'
        · rw [h2] at e2'
          simp only [List.cons.injEq, true_and] at e2'
          obtain ⟨t, ht, hps⟩ := ih ps s (by simp)
            (fun x hx => hq x (List.mem_cons_of_mem _ hx))
            (fun x hx => hp x (List.mem_cons_of_mem _ hx)) e2'.symm
          exact ⟨t, ht, by rw [e1, hps]; rfl⟩

theorem HasPrefix_iff (s pre : List Char) :
    HasPrefix s pre = true ↔ ∃ t, pre ++ t = s := by
  unfold HasPrefix
  rw [List.isPrefixOf_iff_prefix]
  rfl

/-- A cleaned path that begins with another cleaned path and a separator has
the elements of the other one, followed by at least one more. -/
theorem render_prefix_elems (r : Bool) (p q : List (List Char))
    (hp : validElems r p) (hq : validElems r q)
    (h : HasPrefix (render r p) (render r q ++ [PathSeparator]) = true) :
    q ≠ [] ∧ ∃ t, t ≠ [] ∧ p = q ++ t := by
  obtain ⟨s, hs⟩ := (HasPrefix_iff _ _).mp h
  have hsp : ∀ e ∈ p, PathSeparator ∉ e := fun e he => (validElems_mem r p hp e he).2.1
  have hsq : ∀ e ∈ q, PathSeparator ∉ e := fun e he => (validElems_mem r q hq e he).2.1
  have hjp := joinElems_rooted p r hp
  cases r
  · -- not rooted
    by_cases hq0 : q = []
    · exfalso
      subst hq0
      have hs' : '.' :: PathSeparator :: s = render false p := by
        rw [← hs]; rfl
      rcases p with _ | ⟨e', ps⟩
      · simp [render] at hs'
      · have hrp : render false (e' :: ps) = joinElems (e' :: ps) := by simp [render]
        rw [hrp] at hs'
        obtain ⟨y, hy, hshape⟩ := joinElems_cons_shape e' ps
        have hyshape : y = [] ∨ ∃ z, y = PathSeparator :: z := by
          rcases hshape with ⟨_, h2⟩ | ⟨_, h2⟩
          · exact Or.inl h2
          · exact Or.inr ⟨_, h2⟩
        have h' : ['.'] ++ PathSeparator :: s = e' ++ y := by rw [← hy, ← hs']; rfl
        have := (first_separator_unique ['.'] e' s y (by decide)
          (hsp e' (List.mem_cons_self _ _)) hyshape h').1
        exact (validElems_mem false _ hp e' (List.mem_cons_self _ _)).2.2 this.symm
    · refine ⟨hq0, ?_⟩
      have hrq : render false q = joinElems q := by simp [render, hq0]
      rw [hrq] at hs
      by_cases hp0 : p = []
      · exfalso
        subst hp0
        have hlen := congrArg List.length hs
        have hne : joinElems q ≠ [] := hrq ▸ render_ne_nil false q hq
        have : 0 < (joinElems q).length := List.length_pos.mpr hne
        simp [render] at hlen
        omega
      · have hrp : render false p = joinElems p := by simp [render, hp0]
        rw [hrp] at hs
        exact joinElems_starts q p s hq0 hsq hsp (by rw [← hs]; simp)
  · -- rooted
    have hs' : joinElems q ++ PathSeparator :: s = joinElems p := by
      have : PathSeparator :: (joinElems q ++ PathSeparator :: s) = PathSeparator :: joinElems p := by
        rw [← List.cons_append]
        have e1 : render true q = PathSeparator :: joinElems q := by simp [render]
        have e2 : render true p = PathSeparator :: joinElems p := by simp [render]
        rw [e1, e2] at hs
        rw [← hs]; simp
      exact List.cons.inj this |>.2
    by_cases hq0 : q = []
    · exfalso
      subst hq0
      have : HasPrefix (joinElems p) [PathSeparator] = true :=
        (HasPrefix_iff _ _).mpr ⟨s, by rw [← hs']; rfl⟩
      rw [hjp] at this
      cases this
    · exact ⟨hq0, joinElems_starts q p s hq0 hsq hsp hs'⟩

theorem render_append_starts (r : Bool) (q t : List (List Char)) (hq : q ≠ []) (ht : t ≠ []) :
    HasPrefix (render r (q ++ t)) (render r q ++ [PathSeparator]) = true := by
  rw [HasPrefix_iff]
  refine ⟨joinElems t, ?_⟩
  have hqt : q ++ t ≠ [] := by simp [hq]
  unfold render
  rw [joinElems_append q t hq ht]
  cases r
  · simp [hq, hqt]
  · simp

theorem prefix_extends (r : Bool) (d : List (List Char)) (n e : List Char) (he : e ≠ [])
    (h : HasPrefix (render r d) (e ++ [PathSeparator]) = true) :
    HasPrefix (render r (d ++ [n])) (e ++ [PathSeparator]) = true := by
  obtain ⟨s, hs⟩ := (HasPrefix_iff _ _).mp h
  rw [HasPrefix_iff, render_snoc]
  by_cases hd : d = []
  · exfalso
    subst hd
    have hlen := congrArg List.length hs
    have : 0 < e.length := List.length_pos.mpr he
    cases r <;> simp [render, joinElems] at hlen <;> omega
  · rw [if_neg hd, ← hs]
    exact ⟨s ++ PathSeparator :: n, by simp⟩

theorem dropWhile_shape (p : Char → Bool) (l : List Char) :
    l.dropWhile p = [] ∨ ∃ c cs, l.dropWhile p = c :: cs ∧ p c = false := by
  induction l with
  | nil => left; rfl
  | cons x xs ih =>
    by_cases hx : p x = true
    · rw [List.dropWhile_cons, if_pos hx]; exact ih
    · right
      refine ⟨x, xs, ?_, by simpa using hx⟩
      rw [List.dropWhile_cons, if_neg hx]

theorem path_decompose (root : List Char) :
    root = dirPart root ++ lastElem root ∧ PathSeparator ∉ lastElem root ∧
      (dirPart root = [] ∨ ∃ y, dirPart root = y ++ [PathSeparator]) := by
  unfold dirPart lastElem
  refine ⟨?_, ?_, ?_⟩
  · rw [← List.reverse_append, List.takeWhile_append_dropWhile, List.reverse_reverse]
  · intro hm
    have := List.mem_takeWhile_imp (List.mem_reverse.mp hm)
    simp at this
  · rcases dropWhile_shape (fun c => decide (c ≠ PathSeparator)) root.reverse with h | ⟨c, cs, h, hc⟩
    · left
      simp only [ne_eq] at h ⊢
      rw [h]; rfl
    · right
      have hc' : c = PathSeparator := by simpa using hc
      refine ⟨cs.reverse, ?_⟩
      simp only [ne_eq] at h ⊢
      rw [h, List.reverse_cons, hc']

theorem cleanElems_append_name (path n : List Char) (hp : path ≠ [])
    (hn : validName n = true) :
    cleanElems (path ++ PathSeparator :: n) = cleanElems path ++ [n] := by
  obtain ⟨_, h2, _, _⟩ := (validName_iff n).mp hn
  unfold cleanElems
  rw [rooted_append path _ hp, Split_append_sep, Split_no_sep _ _ h2, List.foldl_append]
  simp only [List.foldl_cons, List.foldl_nil]
  rw [cleanStep_name _ _ _ hn, List.reverse_cons]

theorem validName_dotGit : validName dotGit = true := by decide

/-- What `findGits` sends when the root of the walk itself is named `.git`:
a cleaned path whose elements are the first elements of the cleaned root. -/
theorem Dir_of_root (root : List Char) (h : Base root = dotGit) :
    ∃ q, validElems (HasPrefix root [PathSeparator]) q ∧
      Dir root = render (HasPrefix root [PathSeparator]) q ∧ q <+: cleanElems root := by
  obtain ⟨hdec, hsep, hshape⟩ := path_decompose root
  by_cases hB : lastElem root = []
  · -- the root ends in a separator (or is empty): `Dir` cleans all of it
    refine ⟨cleanElems root, cleanElems_valid root, ?_, List.prefix_refl _⟩
    have : dirPart root = root := by
      rw [hB, List.append_nil] at hdec; exact hdec.symm
    unfold Dir
    rw [this]; rfl
  · have hbase : Base root = lastElem root := by
      conv_lhs => rw [hdec]
      exact Base_append _ _ hB hsep hshape
    have hname : lastElem root = dotGit := hbase.symm.trans h
    rcases hshape with hA | ⟨y, hA⟩
    · -- no separator at all
      have hroot : root = dotGit := by rw [hdec, hA, hname]; rfl
      refine ⟨[], validElems_nil _, ?_, List.nil_prefix⟩
      unfold Dir
      rw [hA, hroot]; rfl
    · by_cases hy : y = []
      · subst hy
        have hroot : root = PathSeparator :: dotGit := by rw [hdec, hA, hname]; rfl
        refine ⟨[], validElems_nil _, ?_, List.nil_prefix⟩
        unfold Dir
        rw [hA, hroot]; rfl
      · have hroot : root = y ++ PathSeparator :: dotGit := by
          rw [hdec, hA, hname]; simp
        have hr : HasPrefix root [PathSeparator] = HasPrefix y [PathSeparator] := by
          rw [hroot]; exact rooted_append y _ hy
        have ht := cleanElems_trailing y hy
        refine ⟨cleanElems y, hr ▸ cleanElems_valid y, ?_, ?_⟩
        · unfold Dir
          rw [hA, hr]
          exact Clean_eq _ _ _ ht.1 ht.2
        · rw [hroot, cleanElems_append_name y dotGit hy validName_dotGit]
          exact List.prefix_append _ _

/-! ## Lemmas about the order of the walk

Positions are lists of path elements, ordered lexicographically: the order in
which `filepath.Walk` visits them. -/

theorem pos_lt_append (d : List (List Char)) (n : List Char) (t : List (List Char)) :
    d < d ++ n :: t := by
  induction d with
  | nil => exact List.Lex.nil
  | cons x xs ih => exact List.Lex.cons ih

theorem pos_lt_sibling (d : List (List Char)) (n1 n2 : List Char)
    (t1 t2 : List (List Char)) (h : n1 < n2) : d ++ n1 :: t1 < d ++ n2 :: t2 := by
  induction d with
  | nil => exact List.Lex.rel h
  | cons x xs ih => exact List.Lex.cons ih

theorem pos_lt_cons_iff (x y : List Char) (a b : List (List Char)) :
    x :: a < y :: b ↔ x < y ∨ (x = y ∧ a < b) := by
  constructor
  · intro h
    cases h with
    | cons h => exact Or.inr ⟨rfl, h⟩
    | rel h => exact Or.inl h
  · rintro (h | ⟨h1, h2⟩)
    · exact List.Lex.rel h
    · subst h1; exact List.Lex.cons h2

theorem pos_convex (q : List (List Char)) :
    ∀ a b c : List (List Char), q <+: a → q <+: c → a < b → b < c → q <+: b := by
  induction q with
  | nil => intro a b c _ _ _ _; exact List.nil_prefix
  | cons x xs ih =>
    intro a b c ha hc hab hbc
    obtain ⟨ta, rfl⟩ := ha
    obtain ⟨tc, rfl⟩ := hc
    rcases b with _ | ⟨y, b'⟩
    · cases hab
    · rw [List.cons_append, pos_lt_cons_iff] at hab hbc
      have hxy : x = y := by
        rcases hab with h1 | ⟨h1, _⟩
        · rcases hbc with h2 | ⟨h2, _⟩
          · exact absurd h1 (lt_asymm h2)
          · exact absurd (h2 ▸ h1) (lt_irrefl _)
        · exact h1
      subst hxy
      have hab' : xs ++ ta < b' := by
        rcases hab with h1 | ⟨_, h1⟩
        · exact absurd h1 (lt_irrefl _)
        · exact h1
      have hbc' : b' < xs ++ tc := by
        rcases hbc with h1 | ⟨_, h1⟩
        · exact absurd h1 (lt_irrefl _)
        · exact h1
      obtain ⟨t, ht⟩ := ih _ b' _ (List.prefix_append _ _) (List.prefix_append _ _) hab' hbc'
      exact ⟨t, by rw [List.cons_append, ht]⟩

theorem pos_prefix_le (q p : List (List Char)) (h : q <+: p) : q ≤ p := by
  obtain ⟨t, rfl⟩ := h
  rcases t with _ | ⟨n, t⟩
  · rw [List.append_nil]
  · exact le_of_lt (pos_lt_append q n t)

theorem pos_lt_of_not_below (d : List (List Char)) :
    ∀ (q t : List (List Char)), d < q → ¬ d <+: q → d ++ t < q := by
  induction d with
  | nil => intro q t _ h; exact absurd List.nil_prefix h
  | cons x xs ih =>
    intro q t hlt hnp
    rcases q with _ | ⟨y, q'⟩
    · cases hlt
    · rw [pos_lt_cons_iff] at hlt
      rw [List.cons_append, pos_lt_cons_iff]
      rcases hlt with h | ⟨h1, h2⟩
      · exact Or.inl h
      · subst h1
        refine Or.inr ⟨rfl, ih q' t h2 ?_⟩
        intro hp
        obtain ⟨s, hs⟩ := hp
        exact hnp ⟨s, by rw [List.cons_append, hs]⟩

/-! ## The invariant of the walker -/

theorem FinderInv_mono (r : Bool) (st : Finder) (F F' : List (List Char) → Prop)
    (h : FinderInv r st F) (hF : ∀ q, F' q → F q) : FinderInv r st F' := by
  obtain ⟨h1, h2, h3, h4⟩ := h
  refine ⟨h1, h2, fun e he hne q hq hv => h3 e he hne q (hF q hq) hv, ?_⟩
  rcases h4 with h4 | ⟨hm, qc, pc, hv, hc, hp, hlt⟩
  · exact Or.inl h4
  · exact Or.inr ⟨hm, qc, pc, hv, hc, hp, fun q hq => hlt q (hF q hq)⟩

theorem visit_err (st : Finder) (path : List Char) (e : Error) :
    visit st path (some e) = (st, some (.err e)) := rfl

theorem afterPos_snoc (d : List (List Char)) (name : List Char) :
    ∀ q, afterPos d q → afterPos (d ++ [name]) q := by
  intro q ⟨h1, h2⟩
  refine ⟨pos_lt_of_not_below d q [name] h1 h2, ?_⟩
  intro hp
  exact h2 (List.IsPrefix.trans (List.prefix_append _ _) hp)

theorem afterPos_next (d : List (List Char)) (name next : List Char) (h : name < next) :
    ∀ q, d ++ [next] ≤ q → afterPos (d ++ [name]) q := by
  intro q hq
  refine ⟨lt_of_lt_of_le (pos_lt_sibling d name next [] [] h) hq, ?_⟩
  rintro ⟨t, rfl⟩
  have : d ++ [name] ++ t < d ++ [next] := by
    rw [List.append_assoc]
    exact pos_lt_sibling d name next _ [] h
  exact absurd (lt_of_lt_of_le this hq) (lt_irrefl _)

theorem visit_inv (r : Bool) (st : Finder) (d : List (List Char)) (n : List Char)
    (F F' : List (List Char) → Prop) (hd : validElems r d) (hn : validName n = true)
    (hinv : FinderInv r st F) (hF : F (d ++ [n]))
    (hF' : ∀ q, F' q → F q ∧ d ++ [n] < q) :
    FinderInv r (visit st (render r (d ++ [n])) none).1 F' := by
  have hmono : FinderInv r st F' := FinderInv_mono r st F F' hinv (fun q hq => (hF' q hq).1)
  have hvp : validElems r (d ++ [n]) := validElems_snoc r d n hd hn
  unfold visit
  simp only
  by_cases hskip : st.curDir ≠ [] ∧
      HasPrefix (render r (d ++ [n])) (st.curDir ++ [PathSeparator]) = true
  · rw [if_pos hskip]; exact hmono
  · rw [if_neg hskip]
    by_cases hbase : Base (render r (d ++ [n])) = dotGit
    · rw [if_pos hbase, Dir_render r d n hd hn]
      obtain ⟨h1, h2, h3, h4⟩ := hinv
      have hnew : ∀ e ∈ st.gits, notInside e (render r d) := by
        intro e he
        unfold notInside
        by_contra hcon
        have hcon' : HasPrefix (render r d) (e ++ [PathSeparator]) = true := by
          simpa using hcon
        have hext := prefix_extends r d n e (h2 e he) hcon'
        by_cases hec : e = st.curDir
        · exact hskip ⟨hec ▸ h2 e he, hec ▸ hext⟩
        · have := h3 e he hec (d ++ [n]) hF hvp
          rw [hext] at this
          cases this
      refine ⟨?_, ?_, ?_, ?_⟩
      · simp only
        rw [List.pairwise_append]
        refine ⟨h1, List.pairwise_singleton _ _, ?_⟩
        intro a ha b hb
        rw [List.mem_singleton] at hb
        subst hb
        exact hnew a ha
      · simp only
        intro e he
        rcases List.mem_append.mp he with he | he
        · exact h2 e he
        · rw [List.mem_singleton] at he
          subst he
          exact render_ne_nil r d hd
      · simp only
        intro e he hne q hq hvq
        rcases List.mem_append.mp he with he | he
        · by_cases hec : e = st.curDir
          · -- the previous `curDir`: its subtree lies behind the walk
            rcases h4 with ⟨h40, h41⟩ | ⟨_, qc, pc, hvqc, hcur, hpre, hlt⟩
            · rw [h41] at he; cases he
            · by_contra hcon
              have hcon' : HasPrefix (render r q) (e ++ [PathSeparator]) = true := by
                simpa using hcon
              rw [hec, hcur] at hcon'
              obtain ⟨hqc0, t, _, hqt⟩ := render_prefix_elems r q qc hvq hvqc hcon'
              have hpq : d ++ [n] < q := (hF' q hq).2
              have hpcp : pc < d ++ [n] := hlt _ hF
              have hconv : qc <+: d ++ [n] :=
                pos_convex qc pc (d ++ [n]) q hpre ⟨t, hqt.symm⟩ hpcp hpq
              obtain ⟨t', ht'⟩ := hconv
              have ht'0 : t' ≠ [] := by
                intro h0
                rw [h0, List.append_nil] at ht'
                have hle := pos_prefix_le qc pc hpre
                rw [ht'] at hle
                exact absurd (lt_of_le_of_lt hle hpcp) (lt_irrefl _)
              have hin := render_append_starts r qc t' hqc0 ht'0
              rw [ht', ← hcur] at hin
              exact hskip ⟨hec ▸ h2 e he, hin⟩
          · exact h3 e he hec q (hF' q hq).1 hvq
        · rw [List.mem_singleton] at he
          exact absurd he hne
      · right
        simp only
        refine ⟨by simp, d, d ++ [n], hd, rfl, List.prefix_append _ _, ?_⟩
        intro q hq
        exact (hF' q hq).2
    · rw [if_neg hbase]; exact hmono

theorem visit_root_inv (root : List Char) :
    FinderInv (HasPrefix root [PathSeparator])
      (visit { curDir := [], gits := [] } root none).1 (fun q => cleanElems root < q) ∧
    (visit { curDir := [], gits := [] } root none).2 = none := by
  unfold visit
  simp only [ne_eq, not_true_eq_false, false_and, if_false]
  by_cases hbase : Base root = dotGit
  · rw [if_pos hbase]
    refine ⟨?_, rfl⟩
    obtain ⟨q, hv, hdir, hpre⟩ := Dir_of_root root hbase
    refine ⟨?_, ?_, ?_, ?_⟩
    · simp
    · intro e he
      simp only [List.nil_append, List.mem_singleton] at he
      rw [he, hdir]
      exact render_ne_nil _ q hv
    · intro e he hne
      simp only [List.nil_append, List.mem_singleton] at he
      exact absurd he hne
    · right
      exact ⟨by simp, q, cleanElems root, hv, hdir, hpre, fun _ h => h⟩
  · rw [if_neg hbase]
    refine ⟨⟨?_, ?_, ?_, ?_⟩, rfl⟩
    · simp
    · intro e he; cases he
    · intro e he; cases he
    · left; exact ⟨rfl, rfl⟩

theorem Entries_wf_cons (name : List Char) (node : Node) (rest : Entries)
    (h : (Entries.cons name node rest).wf = true) :
    validName name = true ∧ node.wf = true ∧ rest.wf = true ∧
      ∀ next n2 r2, rest = .cons next n2 r2 → name < next := by
  unfold Entries.wf at h
  simp only [Bool.and_eq_true] at h
  obtain ⟨⟨⟨h1, h2⟩, h3⟩, h4⟩ := h
  refine ⟨h1, h2, h3, ?_⟩
  intro next n2 r2 hr
  subst hr
  simpa using h4

theorem Node_wf_dir (es : Entries) (h : (Node.dir es).wf = true) : es.wf = true := by
  unfold Node.wf at h
  exact h

mutual
/-- The walk of a subtree keeps the invariant: it starts with all positions from
the root of the subtree still to come and ends with those after the subtree. -/
theorem walk_inv (r : Bool) (node : Node) (d : List (List Char)) (n : List Char)
    (st : Finder) (hwf : node.wf = true) (hd : validElems r d) (hn : validName n = true)
    (hinv : FinderInv r st (fun q => d ++ [n] ≤ q)) :
    FinderInv r (walk visit (render r (d ++ [n])) node st).1 (afterPos (d ++ [n])) := by
  cases node with
  | file =>
    unfold walk
    exact visit_inv r st d n _ _ hd hn hinv (le_refl _)
      (fun q hq => ⟨le_of_lt hq.1, hq.1⟩)
  | noStat e =>
    unfold walk
    rw [visit_err]
    exact FinderInv_mono r st _ _ hinv (fun q hq => le_of_lt hq.1)
  | unreadable e =>
    unfold walk
    rw [visit_err]
    exact FinderInv_mono r st _ _ hinv (fun q hq => le_of_lt hq.1)
  | dir es =>
    unfold walk
    have hv := visit_inv r st d n (fun q => d ++ [n] ≤ q) (fun q => d ++ [n] < q) hd hn hinv
      (le_refl _) (fun q hq => ⟨le_of_lt hq, hq⟩)
    rcases hvis : visit st (render r (d ++ [n])) none with ⟨st1, _ | err1⟩
    · rw [hvis] at hv
      simp only
      have hvp : validElems r (d ++ [n]) := validElems_snoc r d n hd hn
      exact walkNames_inv r es (render r (d ++ [n])) (d ++ [n]) st1 _ (Node_wf_dir es hwf)
        (rooted_render r _ hvp) (cleanElems_render r _ hvp) hvp hv
        (fun q hq => hq.1)
        (fun name _ _ _ q hq => lt_of_lt_of_le (pos_lt_append (d ++ [n]) name []) hq)
    · rw [hvis] at hv
      simp only
      exact FinderInv_mono r st1 _ _ hv (fun q hq => hq.1)
/-- The loop over the entries of a directory keeps the invariant. -/
theorem walkNames_inv (r : Bool) (es : Entries) (path : List Char) (d : List (List Char))
    (st : Finder) (F : List (List Char) → Prop) (hwf : es.wf = true)
    (hr : HasPrefix path [PathSeparator] = r) (hc : cleanElems path = d)
    (hd : validElems r d) (hinv : FinderInv r st F)
    (hafter : ∀ q, afterPos d q → F q)
    (hfirst : ∀ name node rest, es = .cons name node rest → ∀ q, d ++ [name] ≤ q → F q) :
    FinderInv r (walkNames visit path es st).1 (afterPos d) := by
  cases es with
  | nil =>
    unfold walkNames
    exact FinderInv_mono r st _ _ hinv hafter
  | cons name node rest =>
    obtain ⟨hname, hnode, hrest, hnext⟩ := Entries_wf_cons name node rest hwf
    have hjoin : Join path name = render r (d ++ [name]) := by
      rw [Join_eq path name hname, hr, hc]
    have hstart : FinderInv r st (fun q => d ++ [name] ≤ q) :=
      FinderInv_mono r st _ _ hinv (hfirst name node rest rfl)
    have hcont : ∀ st1, FinderInv r st1 (afterPos (d ++ [name])) →
        FinderInv r (walkNames visit path rest st1).1 (afterPos d) := by
      intro st1 h1
      exact walkNames_inv r rest path d st1 _ hrest hr hc hd h1 (afterPos_snoc d name)
        (fun next n2 r2 hr2 q hq => afterPos_next d name next (hnext next n2 r2 hr2) q hq)
    have hstop : ∀ st1, FinderInv r st1 (afterPos (d ++ [name])) →
        FinderInv r st1 (afterPos d) :=
      fun st1 h1 => FinderInv_mono r st1 _ _ h1 (afterPos_snoc d name)
    have hsame : FinderInv r st (afterPos (d ++ [name])) :=
      FinderInv_mono r st _ _ hstart (fun q hq => le_of_lt hq.1)
    cases node with
    | noStat e =>
      unfold walkNames
      simp only [hjoin, visit_err]
      rw [if_pos (by simp)]
      exact hstop st hsame
    | file =>
      have hw := walk_inv r .file d name st hnode hd hname hstart
      unfold walkNames
      simp only [hjoin]
      rcases hres : walk visit (render r (d ++ [name])) .file st with ⟨st1, _ | err⟩
      · rw [hres] at hw
        exact hcont st1 hw
      · rw [hres] at hw
        simp only
        split_ifs
        · exact hstop st1 hw
        · exact hcont st1 hw
    | unreadable e =>
      have hw := walk_inv r (.unreadable e) d name st hnode hd hname hstart
      unfold walkNames
      simp only [hjoin]
      rcases hres : walk visit (render r (d ++ [name])) (.unreadable e) st with ⟨st1, _ | err⟩
      · rw [hres] at hw
        exact hcont st1 hw
      · rw [hres] at hw
        simp only
        split_ifs
        · exact hstop st1 hw
        · exact hcont st1 hw
    | dir es2 =>
      have hw := walk_inv r (.dir es2) d name st hnode hd hname hstart
      unfold walkNames
      simp only [hjoin]
      rcases hres : walk visit (render r (d ++ [name])) (.dir es2) st with ⟨st1, _ | err⟩
      · rw [hres] at hw
        exact hcont st1 hw
      · rw [hres] at hw
        simp only
        split_ifs
        · exact hstop st1 hw
        · exact hcont st1 hw
end

theorem Walk_gits (root : List Char) (fs : Node) (st : Finder) :
    (Walk visit root fs st).1 = (walk visit root fs st).1 := by
  unfold Walk
  rcases walk visit root fs st with ⟨st1, _ | _ | e⟩ <;> rfl

/-! ## The claims about the status model -/

/-- C1: for every status `s`, `s.String()` consists of exactly two characters,
the first `D` when `s.dirty` and a space otherwise, the second `E` when
`s.remoteError`, else `*` when `s.plus > 0` and `s.minus < 0`, else `+` when
`s.plus > 0`, else `-` when `s.minus < 0`, else a space; the four examples of
the specification give `"DE"`, `" *"`, `" -"` and two spaces. -/
theorem status_String_two_chars (s : status) :
    s.String = String.mk [dirtyChar s, syncChar s] ∧ s.String.length = 2
      ∧ dirtyChar s = (if s.dirty then 'D' else ' ')
      ∧ syncChar s =
          (if s.remoteError then 'E'
           else if s.plus > 0 ∧ s.minus < 0 then '*'
           else if s.plus > 0 then '+'
           else if s.minus < 0 then '-'
           else ' ')
      ∧ (status.mk true true 3 (-2)).String = "DE"
      ∧ (status.mk false false 3 (-2)).String = " *"
      ∧ (status.mk false false 0 (-2)).String = " -"
      ∧ status.zero.String = "  " := by
  refine ⟨status_String_eq s, ?_, rfl, rfl, ?_, ?_, ?_, ?_⟩
  · rw [status_String_eq]; rfl
  · decide
  · decide
  · decide
  · decide

/-- C2: for every status `s`, `s.clean()` is true if and only if `dirty` and
`remoteError` are false and `plus` and `minus` are zero. -/
theorem clean_iff_zero_fields (s : status) :
    s.clean = true ↔
      (s.dirty = false ∧ s.remoteError = false ∧ s.plus = 0 ∧ s.minus = 0) :=
  clean_iff s

/-- C10: for every status `s` with `plus >= 0` and `minus <= 0`, `s.String()`
is the code of two spaces if and only if `s.clean()`; so a pass of
`processGits` without `showAll` whose final probe yields such an `s` prints
the status line exactly when the code is not blank. -/
theorem blank_code_iff_clean (s : status) (hp : 0 ≤ s.plus) (hm : s.minus ≤ 0) :
    (s.String = "  " ↔ s.clean = true) ∧
      ∀ (git : Git) (pull : Bool) (dir : GoString) (calls : List Call),
        finalProbe git dir calls = .ret (s, none) →
        (processDir git false pull dir calls).2 =
          .ret (if s.String = "  " then [] else [statusLine s dir]) := by
  have hiff : s.String = "  " ↔ s.clean = true := by
    rw [blank_iff, clean_iff]
    constructor
    · rintro ⟨a, b, c, d⟩; exact ⟨a, b, by omega, by omega⟩
    · rintro ⟨a, b, c, d⟩; exact ⟨a, b, by omega, by omega⟩
  refine ⟨hiff, ?_⟩
  intro git pull dir calls hf
  rw [processDir_snd, hf]
  simp only [report]
  by_cases hc : s.clean = true
  · rw [if_pos (hiff.mpr hc)]
    simp [hc]
  · rw [if_neg (fun h => hc (hiff.mp h))]
    simp [hc]

/-- The theorem `blank_code_iff_clean` applied to the status of a repository
that is ahead by one. -/
theorem blank_code_iff_clean_witness :
    ((status.mk false false 1 0).String = "  " ↔ (status.mk false false 1 0).clean = true) ∧
      (processDir aheadGit false false "r" []).2 = .ret [" + r\n"] := by
  have h := blank_code_iff_clean (status.mk false false 1 0) (by decide) (by decide)
  refine ⟨h.1, ?_⟩
  have h2 := h.2 aheadGit false "r" [] (by decide)
  rw [h2]
  decide

/-! ## The claims about the prober -/

/-- C4: for every status report in which each line that begins with
`"# branch.ab "` has at least four fields, `gitStatus` returns a status and no
error; `dirty` is true if and only if some line of the report is not empty
and does not begin with `"# "`; `plus` and `minus` are what `strconv.Atoi`
yields for the third and fourth field of the last `"# branch.ab "` line, and
both are zero when there is no such line. `Atoi` accepts a field exactly when
the field is a decimal numeral, with an optional sign, for an integer in the
range of `int`, and then it yields the integer that the field denotes. Empty
lines and other lines that begin with `"# "` leave the status as it is. -/
theorem gitStatus_parse (refreshOk : Bool) (bs : GoString)
    (h : ∀ line ∈ Split '\n' bs.toList, isAbLine line = true → 4 ≤ (Fields line).length) :
    ∃ s, gitStatusOn refreshOk (.ok bs) = .ret (s, none) ∧
      (s.dirty = true ↔
        ∃ line ∈ Split '\n' bs.toList, line ≠ [] ∧ HasPrefix line "# ".toList = false) ∧
      (match lastAbLine (Split '\n' bs.toList) with
       | none => s.plus = 0 ∧ s.minus = 0
       | some l =>
         ∃ f2 f3, (Fields l).get? 2 = some f2 ∧ (Fields l).get? 3 = some f3 ∧
           s.plus = (Atoi f2).1 ∧ s.minus = (Atoi f3).1 ∧
           ((Atoi f2).2 = none ↔ ∃ n, numeral f2 = some n ∧ minInt ≤ n ∧ n ≤ maxInt) ∧
           ((Atoi f3).2 = none ↔ ∃ n, numeral f3 = some n ∧ minInt ≤ n ∧ n ≤ maxInt) ∧
           (∀ n, numeral f2 = some n → minInt ≤ n → n ≤ maxInt → s.plus = n) ∧
           (∀ n, numeral f3 = some n → minInt ≤ n → n ≤ maxInt → s.minus = n)) ∧
      (∀ (s0 : status) (line : List Char),
        line = [] ∨ (HasPrefix line "# ".toList = true ∧ isAbLine line = false) →
        parseLine s0 line = .ret s0) := by
  obtain ⟨s, e, _, d, a⟩ :=
    parseLoop_spec (Split '\n' bs.toList)
      (if ¬ refreshOk then { status.zero with remoteError := true } else status.zero) h
  refine ⟨s, ?_, ?_, ?_, ?_⟩
  · unfold gitStatusOn
    simp only [e]
  · rw [d]
    have hz : (if ¬ refreshOk then { status.zero with remoteError := true }
        else status.zero).dirty = false := by
      split_ifs <;> rfl
    rw [hz, Bool.false_or, List.any_eq_true]
    constructor
    · rintro ⟨line, hl, hc⟩
      refine ⟨line, hl, ?_⟩
      simpa [isChangeLine] using hc
    · rintro ⟨line, hl, hc⟩
      refine ⟨line, hl, ?_⟩
      simpa [isChangeLine] using hc
  · have hp : (if ¬ refreshOk then { status.zero with remoteError := true }
        else status.zero).plus = 0 := by
      split_ifs <;> rfl
    have hm : (if ¬ refreshOk then { status.zero with remoteError := true }
        else status.zero).minus = 0 := by
      split_ifs <;> rfl
    rcases hl : lastAbLine (Split '\n' bs.toList) with _ | l
    · rw [hl] at a
      simp only
      rw [a.1, a.2, hp, hm]
      exact ⟨rfl, rfl⟩
    · rw [hl] at a
      obtain ⟨f2, f3, h2, h3, e2, e3⟩ := a
      refine ⟨f2, f3, h2, h3, e2, e3, Atoi_accepts_iff f2, Atoi_accepts_iff f3, ?_, ?_⟩
      · intro n hn hlo hhi
        rw [e2, Atoi_numeral f2 n hn hlo hhi]
      · intro n hn hlo hhi
        rw [e3, Atoi_numeral f3 n hn hlo hhi]
  · intro s0 line hline
    rcases hline with hnil | ⟨hh, hab⟩
    · subst hnil; rfl
    · rw [parseLine_other s0 line hab]
      have hc : isChangeLine line = false := by
        unfold isChangeLine
        simp only [hh, not_true_eq_false, and_false, decide_False]
      rw [hc, Bool.or_false]

/-- The theorem `gitStatus_parse` applied to the report of the specification:
the line `"# branch.ab +3 -0"` and two lines of changed files give `dirty`,
`plus = 3` and `minus = 0`. -/
theorem gitStatus_parse_witness :
    gitStatusOn true (.ok "# branch.ab +3 -0\n1 .M N... a.go\n? b.go\n") =
        .ret (status.mk true false 3 0, none) ∧
      ∃ s, gitStatusOn true (.ok "# branch.ab +3 -0\n1 .M N... a.go\n? b.go\n") =
        .ret (s, none) :=
  ⟨by decide,
   (gitStatus_parse true "# branch.ab +3 -0\n1 .M N... a.go\n? b.go\n" (by decide)).imp
     (fun _ hs => hs.1)⟩

/-- C5, the code at the failing inputs: a line `"# branch.ab "` with fewer than
four fields makes the parse loop panic with an index out of range, and a
counter that `strconv.Atoi` rejects as out of range leaves the greatest `int`
in `plus`, not zero. -/
theorem parse_short_branch_line_panics :
    gitStatusOn true (.ok "# branch.ab \n") = .panic ∧
      gitStatusOn true (.ok "# branch.ab +1\n") = .panic ∧
      (Atoi "+99999999999999999999".toList).2 = some .ErrRange ∧
      gitStatusOn true (.ok "# branch.ab +99999999999999999999 -0\n") =
        .ret (status.mk false false 9223372036854775807 0, none) := by
  decide

/-- C6: with the answers of the two invocations of the tool as inputs,
`gitStatus` returns the error of the status report together with the zero
status when the report cannot be obtained, whatever the refresh did, and no
error otherwise; when the report is obtained the result is the one for a
successful refresh with `remoteError` set exactly when the refresh failed, so
`dirty`, `plus` and `minus` do not depend on the refresh. -/
theorem gitStatus_refresh_and_error (refreshOk : Bool) :
    (∀ e, gitStatusOn refreshOk (.error e) = .ret (status.zero, some e)) ∧
    (∀ bs, gitStatusOn refreshOk (.ok bs) =
      match gitStatusOn true (.ok bs) with
      | .panic => .panic
      | .ret (s, _) =>
        .ret ({ dirty := s.dirty, remoteError := !refreshOk, plus := s.plus,
                minus := s.minus }, none)) ∧
    (∀ bs, match gitStatusOn true (.ok bs) with
      | .panic => True
      | .ret (s, err) => err = none ∧ s.remoteError = false) := by
  refine ⟨fun e => rfl, ?_, ?_⟩
  · intro bs
    unfold gitStatusOn
    cases refreshOk
    · simp only [Bool.false_eq_true, not_false_eq_true, if_true, not_true_eq_false, if_false]
      rw [parseLoop_remoteError (Split '\n' bs.toList) status.zero true]
      rcases parseLoop status.zero (Split '\n' bs.toList) with s1 | _ <;> rfl
    · simp only [not_true_eq_false, if_false]
      have := parseLoop_remoteError (Split '\n' bs.toList) status.zero false
      rcases hp : parseLoop status.zero (Split '\n' bs.toList) with s1 | _
      · rw [hp] at this
        have hz : ({ status.zero with remoteError := false } : status) = status.zero := rfl
        rw [hz, hp] at this
        simp only [Outcome.ret.injEq] at this
        simp only [Bool.not_true]
        rw [← this]
      · rfl
  · intro bs
    unfold gitStatusOn
    simp only [not_true_eq_false, if_false]
    have := parseLoop_remoteError (Split '\n' bs.toList) status.zero false
    have hz : ({ status.zero with remoteError := false } : status) = status.zero := rfl
    rw [hz] at this
    rcases hp : parseLoop status.zero (Split '\n' bs.toList) with s1 | _
    · rw [hp] at this
      simp only [Outcome.ret.injEq] at this
      simp only [true_and]
      rw [this]
    · trivial

/-! ## The claims about the worker -/

theorem report_length (showAll : Bool) (dir : GoString) (r : status × Option Error) :
    (report showAll dir r).length ≤ 1 := by
  rcases r with ⟨s, _ | e⟩
  · simp only [report]
    split_ifs <;> simp
  · simp [report]

theorem processGits_stdout (git : Git) (showAll pull : Bool) (gits : List GoString) :
    ∀ w : Worker,
      (processGits git showAll pull gits w).stdout =
        w.stdout ++ reportAll git showAll gits w.calls := by
  induction gits with
  | nil => intro w; simp [processGits, reportAll]
  | cons dir gits ih =>
    intro w
    have h1 := processDir_fst git showAll pull dir w.calls
    have h2 := processDir_snd git showAll pull dir w.calls
    unfold processGits reportAll
    rcases hp : processDir git showAll pull dir w.calls with ⟨c, o⟩
    rw [hp] at h1 h2
    simp only at h1 h2
    subst h1
    rcases hf : finalProbe git dir w.calls with r | _
    · rw [hf] at h2
      subst h2
      simp only
      rw [ih]
      simp
    · rw [hf] at h2
      subst h2
      simp

theorem processGits_panicked (git : Git) (showAll pull : Bool) (gits : List GoString) :
    ∀ w : Worker,
      (processGits git showAll pull gits w).panicked =
        (w.panicked || anyPanic git gits w.calls) := by
  induction gits with
  | nil => intro w; simp [processGits, anyPanic]
  | cons dir gits ih =>
    intro w
    have h1 := processDir_fst git showAll pull dir w.calls
    have h2 := processDir_snd git showAll pull dir w.calls
    unfold processGits anyPanic
    rcases hp : processDir git showAll pull dir w.calls with ⟨c, o⟩
    rw [hp] at h1 h2
    simp only at h1 h2
    subst h1
    rcases hf : finalProbe git dir w.calls with r | _
    · rw [hf] at h2
      subst h2
      simp only
      rw [ih]
    · rw [hf] at h2
      subst h2
      simp

theorem reportAll_length (git : Git) (gits : List GoString) :
    ∀ calls : List Call,
      anyPanic git gits calls = true ∨
        (reportAll git true gits calls).length = gits.length := by
  induction gits with
  | nil => intro calls; right; rfl
  | cons dir gits ih =>
    intro calls
    unfold anyPanic reportAll
    rcases hf : finalProbe git dir calls with r | _
    · simp only
      rcases ih (calls ++ callsFor git dir calls) with h | h
      · left; exact h
      · right
        rw [List.length_append, h]
        rcases r with ⟨s, _ | e⟩ <;> simp [report, Nat.add_comm]
    · left; rfl

theorem reportAll_showAll (git : Git) (gits : List GoString) :
    ∀ calls : List Call,
      anyPanic git gits calls = true ∨
        List.Forall₂ (fun dir line => ∃ r, line = lineOf dir r) gits
          (reportAll git true gits calls) := by
  induction gits with
  | nil => intro calls; right; exact List.Forall₂.nil
  | cons dir gits ih =>
    intro calls
    unfold anyPanic reportAll
    rcases hf : finalProbe git dir calls with r | _
    · simp only
      rcases ih (calls ++ callsFor git dir calls) with h | h
      · left; exact h
      · right
        have hr : report true dir r = [lineOf dir r] := by
          rcases r with ⟨s, _ | e⟩ <;> simp [report, lineOf]
        rw [hr]
        exact List.Forall₂.cons ⟨r, rfl⟩ h
    · left; rfl

/-- C7: for every path that `processGits` receives it prints at most one line:
`"?? <path>: <e>"` when the probe that determines the final status fails with
`e`, and otherwise, with final status `s`, the line `"<s.String()> <path>"`
when `showAll` is set or `s` is not clean and nothing when neither holds. The
output for a queue of paths is the concatenation, in order, of the outputs for
the paths (up to a path whose probe panics), so with `showAll` and no panic
there is exactly one line for every path received, the lines for the paths in
the order of the paths. -/
theorem processGits_prints (git : Git) (showAll pull : Bool) :
    (∀ dir calls, (processDir git showAll pull dir calls).2 =
      match finalProbe git dir calls with
      | .panic => .panic
      | .ret r => .ret (report showAll dir r)) ∧
    (∀ dir s e, report showAll dir (s, some e) = ["?? " ++ dir ++ ": " ++ e ++ "\n"]) ∧
    (∀ dir s, report showAll dir (s, none) =
      if showAll ∨ ¬ s.clean then [s.String ++ " " ++ dir ++ "\n"] else []) ∧
    (∀ dir r, (report showAll dir r).length ≤ 1) ∧
    (∀ gits w, (processGits git showAll pull gits w).stdout =
      w.stdout ++ reportAll git showAll gits w.calls) ∧
    (∀ gits w, (processGits git showAll pull gits w).panicked =
      (w.panicked || anyPanic git gits w.calls)) ∧
    (∀ gits calls, anyPanic git gits calls = true ∨
      (reportAll git true gits calls).length = gits.length) ∧
    (∀ gits calls, anyPanic git gits calls = true ∨
      List.Forall₂ (fun dir line => ∃ r, line = lineOf dir r) gits
        (reportAll git true gits calls)) :=
  ⟨processDir_snd git showAll pull, fun _ _ _ => rfl, fun _ _ => rfl,
   report_length showAll, processGits_stdout git showAll pull,
   processGits_panicked git showAll pull, reportAll_length git, reportAll_showAll git⟩

theorem processGits_calls (git : Git) (showAll pull : Bool) (gits : List GoString) :
    ∀ w : Worker,
      (processGits git showAll pull gits w).calls =
        w.calls ++ callsAll git gits w.calls := by
  induction gits with
  | nil => intro w; simp [processGits, callsAll]
  | cons dir gits ih =>
    intro w
    have h1 := processDir_fst git showAll pull dir w.calls
    have h2 := processDir_snd git showAll pull dir w.calls
    unfold processGits callsAll
    rcases hp : processDir git showAll pull dir w.calls with ⟨c, o⟩
    rw [hp] at h1 h2
    simp only at h1 h2
    subst h1
    rcases hf : finalProbe git dir w.calls with r | _
    · rw [hf] at h2
      subst h2
      simp only
      rw [ih]
      simp
    · rw [hf] at h2
      subst h2
      simp

/-- C8: for every path that `processGits` receives and both values of `pull`,
`gitPull` is invoked exactly when the first probe succeeds with `minus < 0`,
and is followed by exactly one re-probe, whose result replaces that of the
first probe whatever `gitPull` returns; otherwise there is neither a pull nor
a re-probe. So the invocations that `processGits` makes for a queue are, path
after path, those of a probe, followed by a pull and those of one re-probe
exactly when the path is behind (up to a path whose probe panics), and what it
prints for a path is decided by the re-probe then. The invocations made and
the lines printed are the same for `pull = true` and `pull = false`: without
the flag, a repository that is behind by two is probed, pulled and probed
again. -/
theorem pull_when_behind (git : Git) (showAll pull : Bool) (dir : GoString)
    (calls : List Call) :
    (behind git dir calls = true ↔
      ∃ s, (gitStatus git dir calls).2 = .ret (s, none) ∧ s.minus < 0) ∧
    (processDir git showAll pull dir calls).1 =
      calls ++ (if behind git dir calls then
        probeCalls dir ++ [Call.pullFfOnly dir] ++ probeCalls dir
      else probeCalls dir) ∧
    (processDir git showAll pull dir calls).2 =
      (match (if behind git dir calls then
          (gitStatus git dir (calls ++ probeCalls dir ++ [Call.pullFfOnly dir])).2
        else (gitStatus git dir calls).2) with
       | .panic => .panic
       | .ret r => .ret (report showAll dir r)) ∧
    (∀ p, processDir { git with pull := p } showAll pull dir calls =
      processDir git showAll pull dir calls) ∧
    (∀ gits w, processGits git showAll true gits w = processGits git showAll false gits w) ∧
    (∀ gits w, (processGits git showAll pull gits w).calls =
      w.calls ++ callsAll git gits w.calls) ∧
    (∀ gits c, callsAll git (dir :: gits) c =
      (if behind git dir c then
        probeCalls dir ++ [Call.pullFfOnly dir] ++ probeCalls dir
      else probeCalls dir) ++
      (match (if behind git dir c then
          (gitStatus git dir (c ++ probeCalls dir ++ [Call.pullFfOnly dir])).2
        else (gitStatus git dir c).2) with
       | .panic => []
       | .ret _ =>
         callsAll git gits (c ++ (if behind git dir c then
           probeCalls dir ++ [Call.pullFfOnly dir] ++ probeCalls dir
         else probeCalls dir)))) ∧
    (∀ w : Worker, (processGits git showAll pull [dir] w).calls =
      w.calls ++ (if behind git dir w.calls then
        probeCalls dir ++ [Call.pullFfOnly dir] ++ probeCalls dir
      else probeCalls dir)) ∧
    (∀ w : Worker, (processGits git showAll pull [dir] w).stdout =
      w.stdout ++
        (match (if behind git dir w.calls then
            (gitStatus git dir (w.calls ++ probeCalls dir ++ [Call.pullFfOnly dir])).2
          else (gitStatus git dir w.calls).2) with
         | .panic => []
         | .ret r => report showAll dir r)) ∧
    (processGits behindGit false false ["r"] { calls := [], stdout := [], panicked := false }).calls =
      [Call.remoteUpdate "r", Call.statusPorcelain "r", Call.pullFfOnly "r",
       Call.remoteUpdate "r", Call.statusPorcelain "r"] ∧
    (processGits behindGit false false ["r"] { calls := [], stdout := [], panicked := false }).stdout =
      [" - r\n"] := by
  refine ⟨?_, processDir_fst git showAll pull dir calls,
    processDir_snd git showAll pull dir calls, fun _ => rfl, ?_,
    processGits_calls git showAll pull, fun _ _ => rfl, ?_, ?_, by decide, by decide⟩
  · unfold behind firstProbe
    rcases (gitStatus git dir calls).2 with ⟨s, _ | e⟩ | _ <;> simp
  · intro gits
    induction gits with
    | nil => intro w; rfl
    | cons d gits ih =>
      intro w
      unfold processGits
      have e : processDir git showAll true d w.calls = processDir git showAll false d w.calls :=
        rfl
      rw [e]
      rcases processDir git showAll false d w.calls with ⟨c, o | _⟩
      · exact ih _
      · rfl
  · intro w
    rw [processGits_calls]
    unfold callsAll callsFor
    rcases finalProbe git dir w.calls with r | _ <;> simp [callsAll]
  · intro w
    rw [processGits_stdout]
    unfold reportAll
    show w.stdout ++ (match finalProbe git dir w.calls with
      | .panic => []
      | .ret r => report showAll dir r ++ reportAll git showAll [] _) = _
    unfold finalProbe reProbe firstProbe
    rcases (if behind git dir w.calls = true then
        (gitStatus git dir (w.calls ++ probeCalls dir ++ [Call.pullFfOnly dir])).2
      else (gitStatus git dir w.calls).2) with r | _ <;> simp [reportAll]

/-! ## The claims about the orchestrator -/

/-- C9, as stated, fails: when a directory of the tree cannot be read,
`findGits` returns the error and `main` ends in `log.Fatal` without closing
the channel. -/
theorem queue_not_closed_on_error :
    (findGits unreadableTree "/a".toList).2 = some "open /a/b: permission denied" ∧
      (main 4 unreadableTree "/a".toList).count .closeGits = 0 ∧
      (main 4 unreadableTree "/a".toList).getLast? =
        some (.logFatal "open /a/b: permission denied") := by
  decide

/-- C9, amended: in `main` the channel is not closed before `findGits` has
returned; it is closed exactly once, right after `findGits` has returned, when
`findGits` returns no error; when `findGits` returns an error the only step
that follows is `log.Fatal`, so the channel is never closed. (Without a worker
`findGits` blocks on its first send and does not return.) -/
theorem queue_closed_once_without_error (par : Int) (fs : Node) (dir : List Char) :
    ∃ before after,
      main par fs dir = before ++ after ∧
      before.count .closeGits = 0 ∧
      (∀ e, MainStep.findGitsReturned e ∉ before) ∧
      ((par.toNat = 0 ∧ (findGits fs dir).1 ≠ [] ∧ after = [.blockedOnSend]) ∨
       (¬ (par.toNat = 0 ∧ (findGits fs dir).1 ≠ []) ∧ (findGits fs dir).2 = none ∧
          after = [.findGitsReturned none, .closeGits, .wgWait] ∧
          (main par fs dir).count .closeGits = 1) ∨
       (¬ (par.toNat = 0 ∧ (findGits fs dir).1 ≠ []) ∧
          ∃ e, (findGits fs dir).2 = some e ∧
            after = [.findGitsReturned (some e), .logFatal e] ∧
            (main par fs dir).count .closeGits = 0)) := by
  have hb : (List.replicate par.toNat MainStep.startWorker).count .closeGits = 0 := by
    rw [List.count_eq_zero]
    intro h
    have := List.eq_of_mem_replicate h
    cases this
  have hr : ∀ e, MainStep.findGitsReturned e ∉ List.replicate par.toNat MainStep.startWorker := by
    intro e h
    have := List.eq_of_mem_replicate h
    cases this
  refine ⟨List.replicate par.toNat .startWorker, _, rfl, hb, hr, ?_⟩
  by_cases hblock : par.toNat = 0 ∧ (findGits fs dir).1 ≠ []
  · left
    exact ⟨hblock.1, hblock.2, by rw [if_pos hblock]⟩
  · right
    unfold main mainSteps
    rw [if_neg hblock]
    rcases herr : (findGits fs dir).2 with _ | e
    · left
      refine ⟨hblock, rfl, rfl, ?_⟩
      rw [List.count_append, hb]
      decide
    · right
      refine ⟨hblock, e, rfl, rfl, ?_⟩
      rw [List.count_append, hb]
      simp [List.count_cons]

/-! ## The claims about the discovery walker -/

/-- C3, as stated, fails: in a well-formed tree with a repository at `/a/.git`
and another at `/a/+x/.git` the walk reaches `/a/+x` before `/a/.git`, and
`findGits` sends `/a/+x` and then `/a`, so a path that was sent lies inside
another path that was sent. -/
theorem findGits_sends_nested_first :
    earlyTree.wf = true ∧
      findGits earlyTree "/a".toList = (["/a/+x".toList, "/a".toList], none) ∧
      HasPrefix "/a/+x".toList ("/a".toList ++ [PathSeparator]) = true ∧
      ¬ (∀ a ∈ (findGits earlyTree "/a".toList).1,
          ∀ b ∈ (findGits earlyTree "/a".toList).1, notInside a b) := by
  refine ⟨by decide, by decide, by decide, ?_⟩
  intro h
  have h1 := h "/a".toList (by decide) "/a/+x".toList (by decide)
  revert h1
  unfold notInside
  decide

/-- C3, amended: for every well-formed tree (in each directory the names are
valid and in increasing order) and every root passed to `findGits`, a path
sent on the channel does not lie inside a path sent before it: once a
repository root `R` has been sent, no path that begins with `R` and a
separator is sent after it. -/
theorem findGits_later_not_inside_earlier (fs : Node) (dir : List Char)
    (hwf : fs.wf = true) :
    (findGits fs dir).1.Pairwise
      (fun earlier later => HasPrefix later (earlier ++ [PathSeparator]) = false) := by
  show (findGits fs dir).1.Pairwise notInside
  unfold findGits
  simp only
  rw [Walk_gits]
  have hroot := visit_root_inv dir
  cases fs with
  | file =>
    unfold walk
    exact hroot.1.1
  | noStat e =>
    unfold walk
    rw [visit_err]
    exact List.Pairwise.nil
  | unreadable e =>
    unfold walk
    rw [visit_err]
    exact List.Pairwise.nil
  | dir es =>
    unfold walk
    rcases hvis : visit { curDir := [], gits := [] } dir none with ⟨st1, res⟩
    rw [hvis] at hroot
    obtain ⟨hinv, hres⟩ := hroot
    simp only at hres hinv
    subst hres
    simp only
    exact (walkNames_inv _ es dir (cleanElems dir) st1 _ (Node_wf_dir es hwf) rfl rfl
      (cleanElems_valid dir) hinv (fun q hq => hq.1)
      (fun name _ _ _ q hq => lt_of_lt_of_le (pos_lt_append (cleanElems dir) name []) hq)).1

/-- The theorem `findGits_later_not_inside_earlier` applied to the tree of the
specification: the tree with `/a/.git` and `/a/sub/.git` yields exactly one
path, `/a`. -/
theorem findGits_later_not_inside_earlier_witness :
    nestedTree.wf = true ∧
      findGits nestedTree "/a".toList = (["/a".toList], none) ∧
      (findGits nestedTree "/a".toList).1.Pairwise
        (fun earlier later => HasPrefix later (earlier ++ [PathSeparator]) = false) :=
  ⟨by decide, by decide,
    findGits_later_not_inside_earlier nestedTree "/a".toList (by decide)⟩

/-! ## Further facts about the code -/

/-- A counter with a syntax error is read as zero by `strconv.Atoi`. -/
theorem Atoi_syntax_zero (s : List Char) (h : (Atoi s).2 = some .ErrSyntax) :
    (Atoi s).1 = 0 := by
  unfold Atoi ParseInt at *
  rcases s with _ | ⟨c, cs⟩
  · rfl
  · simp only at h ⊢
    rcases hp : ParseUint (if c = '+' ∨ c = '-' then cs else c :: cs) with ⟨un, _ | _ | _⟩
    · rw [hp] at h
      simp only at h
      split_ifs at h <;> simp at h
    · rfl
    · rw [hp] at h
      simp only at h
      split_ifs at h <;> simp at h

/-- Walked from `.`, the tree with `.git` and `sub/.git` yields both `.` and
`sub`: the text `./` that the closure matches against is not the start of any
path that the walk produces. -/
theorem findGits_from_dot :
    findGits nestedTree ".".toList = ([".".toList, "sub".toList], none) := by
  decide

end Tgit
